import Mathlib

/-!
# Map and struct encoding of the msgpack encoder (`encode_map.go`)

A shallow embedding of `encode_map.go`.  The Go functions return an `error`
and write to the encoder's sink as a side effect; here every such function is
a state transformer `Enc` over the bytes the sink has accepted so far.
-/

namespace Msgpack

/-! ## Errors, sink state and the `error`-returning computations -/

/-- A Go `error` value. -/
structure Error where
  msg : String
deriving DecidableEq, Repr

/-- Execution state of one encode call.  `out` holds the bytes the sink has
accepted so far, oldest first.  `calls` is a ghost log: the arguments on which
`e.keysToCompressed` has been invoked so far, in order, by the functions of this
file and inside the collaborators they call; nothing reads it. -/
structure St where
  out : List Nat
  calls : List String
deriving DecidableEq, Repr

/-- A Go function `func(...) error` acting on the encoder: the returned
`error` (`none` is `nil`) and the state it leaves. -/
abbrev Enc := St → Option Error × St

/-- The statement `return nil`. -/
def Enc.ok : Enc := fun s => (none, s)

/-- The Go idiom `if err := a; err != nil { return err }; b`. -/
def Enc.andThen (a b : Enc) : Enc := fun s =>
  match a s with
  | (some err, s1) => (some err, s1)
  | (none, s1) => b s1

/-- The Go loop `for _, x := range xs { if err := body(x); err != nil { return err } }`
followed by `return nil`. -/
def forRange {α : Type} (body : α → Enc) : List α → Enc
  | [] => Enc.ok
  | x :: rest => (body x).andThen (forRange body rest)

/-! ## Values, maps and the collaborators outside `encode_map.go` -/

/-- Dynamic Go values as far as this file inspects them: the only inspection is
the type assertion `key.Interface().(string)` of `encodeMapValue`, which succeeds
exactly on `str`, a value of type `string`.  `namedStr typ s` is a value of the
defined type `typ` whose underlying type is `string`. -/
inductive Value where
  | nil
  | bool (b : Bool)
  | int (i : Int)
  | str (s : String)
  | namedStr (typ : String) (s : String)
  | mapStringString (m : Option (List (String × String)))
deriving DecidableEq, Repr

/-- What one call of a collaborator does: it hands `bytes` to the sink, invokes the
key transform on the keys `calls` in this order (a nested map or struct is encoded
by the same encoder), and then returns `err`.  A call that fails half-way through
a value has a non-empty `bytes` and `err = some _`. -/
structure Chunk where
  bytes : List Nat
  err : Option Error
  calls : List String
deriving DecidableEq, Repr

/-- Modelled from the spec: the `codes` package is not part of the sources;
the lead bytes are those of the MessagePack wire format. -/
def codes.Nil : Nat := 0xc0

/-- Modelled from the spec: lead byte of the 1-byte map header
("1-byte tag encoding count inline"). -/
def codes.FixedMapLow : Nat := 0x80

/-- Modelled from the spec: lead byte of the map header with a 16-bit count. -/
def codes.Map16 : Nat := 0xde

/-- Modelled from the spec: lead byte of the map header with a 32-bit count. -/
def codes.Map32 : Nat := 0xdf

/-- Modelled from the spec: lead byte of the 1-byte array header. -/
def codes.FixedArrayLow : Nat := 0x90

/-- Modelled from the spec: lead byte of the array header with a 16-bit count. -/
def codes.Array16 : Nat := 0xdc

/-- Modelled from the spec: lead byte of the array header with a 32-bit count. -/
def codes.Array32 : Nat := 0xdd

/-- The Go conversion `codes.Code(l)` (and `byte(l)`) of an `int`. -/
def toCode (l : Int) : Nat := (l % 256).toNat

/-- The Go conversion `uint16(l)` of an `int`. -/
def toUint16 (l : Int) : Nat := (l % 65536).toNat

/-- The Go conversion `uint32(l)` of an `int`. -/
def toUint32 (l : Int) : Nat := (l % 4294967296).toNat

/-- The configuration fields of the `Encoder` that this file reads.  A collaborator
that encodes a nested value receives the same encoder and so runs under the same
configuration. -/
structure Config where
  sortMapKeys : Bool
  structAsArray : Bool
  useJSONTag : Bool
  keysToCompressed : Option (String → Except Error String)

/-- The `Encoder`.  The first block are the configuration fields the file reads.
`w` is the sink: `w written chunk` is the error with which the sink refuses
`chunk` after having accepted `written`, or `none` when it accepts it.
The three codecs describe the collaborators `EncodeString`, `EncodeValue` and
`Encode`, which live outside this file.  `EncodeValue` and `Encode` are handed
the encoder itself and dispatch a nested map or struct back to the functions of
this file, so what they do for a value depends on the configuration; `EncodeString`
writes a string and reads no configuration. -/
structure Encoder where
  sortMapKeys : Bool
  structAsArray : Bool
  useJSONTag : Bool
  keysToCompressed : Option (String → Except Error String)
  w : List Nat → List Nat → Option Error
  stringCodec : String → Chunk
  valueCodecOf : Config → Value → Chunk
  ifaceCodecOf : Config → Value → Chunk

/-- The configuration of an encoder. -/
def Encoder.config (e : Encoder) : Config :=
  ⟨e.sortMapKeys, e.structAsArray, e.useJSONTag, e.keysToCompressed⟩

/-- What `e.EncodeValue(v)` does, under the configuration of `e`. -/
def Encoder.valueCodec (e : Encoder) (v : Value) : Chunk := e.valueCodecOf e.config v

/-- What `e.Encode(v)` does, under the configuration of `e`. -/
def Encoder.ifaceCodec (e : Encoder) (v : Value) : Chunk := e.ifaceCodecOf e.config v

/-- One call into a collaborator: the sink is offered the bytes; if it refuses them
nothing happens and its error is returned, otherwise the bytes are appended, the
transform invocations of the call are logged, and the call's own result is
returned. -/
def Encoder.emit (e : Encoder) (c : Chunk) : Enc := fun s =>
  match e.w s.out c.bytes with
  | some err => (some err, s)
  | none => (c.err, ⟨s.out ++ c.bytes, s.calls ++ c.calls⟩)

/-- Modelled from the spec: `e.write(b)`, one write of raw bytes to the sink. -/
def Encoder.write (e : Encoder) (b : List Nat) : Enc := e.emit ⟨b, none, []⟩

/-- Modelled from the spec: `e.writeCode(c)` writes the single byte `c`. -/
def Encoder.writeCode (e : Encoder) (c : Nat) : Enc := e.write [c]

/-- Modelled from the spec: `e.write2(code, n)` writes the code and the 16-bit
count `n`, most significant byte first. -/
def Encoder.write2 (e : Encoder) (code n : Nat) : Enc :=
  e.write [code, n / 256 % 256, n % 256]

/-- Modelled from the spec: `e.write4(code, n)` writes the code and the 32-bit
count `n`, most significant byte first. -/
def Encoder.write4 (e : Encoder) (code n : Nat) : Enc :=
  e.write [code, n / 16777216 % 256, n / 65536 % 256, n / 256 % 256, n % 256]

/-- Modelled from the spec: `e.EncodeNil()` writes the nil marker. -/
def Encoder.EncodeNil (e : Encoder) : Enc := e.writeCode codes.Nil

/-- The collaborator `e.EncodeString(s)`. -/
def Encoder.EncodeString (e : Encoder) (s : String) : Enc := e.emit (e.stringCodec s)

/-- The collaborator `e.EncodeValue(v)`: it is handed `e` and so runs under the
configuration of `e`. -/
def Encoder.EncodeValue (e : Encoder) (v : Value) : Enc := e.emit (e.valueCodec v)

/-- The collaborator `e.Encode(v)`: it is handed `e` and so runs under the
configuration of `e`. -/
def Encoder.Encode (e : Encoder) (v : Value) : Enc := e.emit (e.ifaceCodec v)

/-- One invocation `e.keysToCompressed(k)` followed by
`if err != nil { return err }`; on success the code continues with the result. -/
def callTransform (f : String → Except Error String) (k : String) (cont : String → Enc) : Enc :=
  fun s =>
    let s1 : St := { s with calls := s.calls ++ [k] }
    match f k with
    | .error err => (some err, s1)
    | .ok r => cont r s1

/-- The block
`if compressed { k, err = e.keysToCompressed(k); if err != nil { return err } }`
with `compressed := e.keysToCompressed != nil`; the code after it runs with the
variable as the block left it. -/
def Encoder.compress (e : Encoder) (k : String) (cont : String → Enc) : Enc :=
  match e.keysToCompressed with
  | none => cont k
  | some f => callTransform f k cont

/-- A Go `map[string]V` that is not nil: its entries in the order in which one
`range` over it visits them.  The keys of a map are pairwise distinct. -/
abbrev Entries (ν : Type) := List (String × ν)

/-- The index expression `m[k]` on a `map[string]V`, `zero` being the zero value of `V`. -/
def index {ν : Type} (zero : ν) (m : Entries ν) (k : String) : ν :=
  match m.find? (fun p => p.1 == k) with
  | some p => p.2
  | none => zero

/-- The call `v.MapIndex(key)` of `reflect`. -/
def MapIndex (v : List (Value × Value)) (key : Value) : Value :=
  match v.find? (fun p => p.1 == key) with
  | some p => p.2
  | none => Value.nil

/-- The call `sort.Strings(keys)`: the keys in ascending order of Go's `<` on
strings, the lexicographic order of their characters. -/
def sortStrings (keys : List String) : List String :=
  keys.insertionSort (fun a b => a.toList ≤ b.toList)

/-! ## The functions of `encode_map.go` -/

/-- `func (e *Encoder) EncodeMapLen(l int) error`. -/
def Encoder.EncodeMapLen (e : Encoder) (l : Int) : Enc :=
  if l < 16 then
    e.writeCode (codes.FixedMapLow ||| toCode l)
  else if l < 65536 then
    e.write2 codes.Map16 (toUint16 l)
  else
    e.write4 codes.Map32 (toUint32 l)

/-- `func encodeMapValue(e *Encoder, v reflect.Value) error`; `none` is the nil map,
`some m` lists the entries in the order of `v.MapKeys()`. -/
def encodeMapValue (e : Encoder) (v : Option (List (Value × Value))) : Enc :=
  match v with
  | none => e.EncodeNil
  | some m =>
    (e.EncodeMapLen m.length).andThen
      (forRange (fun key =>
        let rest : Value → Enc := fun useKey =>
          (e.EncodeValue useKey).andThen (e.EncodeValue (MapIndex m key))
        match e.keysToCompressed with
        | none => rest key
        | some f =>
          match key with
          | Value.str k => callTransform f k (fun keyValue => rest (Value.str keyValue))
          | _ => rest key) (m.map Prod.fst))

/-- `func (e *Encoder) encodeSortedMapStringString(m map[string]string) error`. -/
def Encoder.encodeSortedMapStringString (e : Encoder) (m : Entries String) : Enc :=
  let keys := sortStrings (m.map Prod.fst)
  forRange (fun k =>
    e.compress k (fun k =>
      (e.EncodeString k).andThen (e.EncodeString (index "" m k)))) keys

/-- `func (e *Encoder) encodeSortedMapStringInterface(m map[string]interface{}) error`. -/
def Encoder.encodeSortedMapStringInterface (e : Encoder) (m : Entries Value) : Enc :=
  let keys := sortStrings (m.map Prod.fst)
  forRange (fun k =>
    e.compress k (fun k =>
      (e.EncodeString k).andThen (e.Encode (index Value.nil m k)))) keys

/-- `func encodeMapStringStringValue(e *Encoder, v reflect.Value) error`. -/
def encodeMapStringStringValue (e : Encoder) (v : Option (Entries String)) : Enc :=
  match v with
  | none => e.EncodeNil
  | some m =>
    (e.EncodeMapLen m.length).andThen
      (if e.sortMapKeys then
        e.encodeSortedMapStringString m
      else
        forRange (fun (p : String × String) =>
          e.compress p.1 (fun mk =>
            (e.EncodeString mk).andThen (e.EncodeString p.2))) m)

/-- `func encodeMapStringInterfaceValue(e *Encoder, v reflect.Value) error`. -/
def encodeMapStringInterfaceValue (e : Encoder) (v : Option (Entries Value)) : Enc :=
  match v with
  | none => e.EncodeNil
  | some m =>
    (e.EncodeMapLen m.length).andThen
      (if e.sortMapKeys then
        e.encodeSortedMapStringInterface m
      else
        forRange (fun (p : String × Value) =>
          e.compress p.1 (fun mk =>
            (e.EncodeString mk).andThen (e.Encode p.2))) m)

/-! ## Structs -/

/-- Modelled from the spec: a field descriptor of the field introspector (not part
of the sources): the emitted name, the position of the field in the struct, and
whether the field is declared omit-empty. -/
structure field where
  name : String
  index : Nat
  omitEmpty : Bool
deriving DecidableEq, Repr

/-- Modelled from the spec: the ordered field-descriptor list of a struct type and
its array-shape flag (fields `List` and `AsArray` of the introspector). -/
structure fields where
  list : List field
  AsArray : Bool
deriving DecidableEq, Repr

/-- A struct value `strct`: the values of its fields by position, and what the two
introspector caches `structs.Fields(strct.Type())` and
`jsonStructs.Fields(strct.Type())` answer for its type. -/
structure Struct where
  vals : List Value
  structs : fields
  jsonStructs : fields
deriving DecidableEq, Repr

/-- The call `strct.FieldByIndex(f.index)`. -/
def Struct.FieldByIndex (strct : Struct) (i : Nat) : Value := strct.vals.getD i Value.nil

/-- Modelled from the spec: whether a value is the empty value of its type
("its runtime value equals that type's empty/zero value"). -/
def isEmptyValue : Value → Bool
  | Value.nil => true
  | Value.bool b => !b
  | Value.int i => i == 0
  | Value.str s => s == ""
  | Value.namedStr _ s => s == ""
  | Value.mapStringString none => true
  | Value.mapStringString (some m) => m.isEmpty

/-- Modelled from the spec: the omit-empty predicate of a field, evaluated on the
struct value at hand. -/
def field.Omit (f : field) (strct : Struct) : Bool :=
  f.omitEmpty && isEmptyValue (strct.FieldByIndex f.index)

/-- Modelled from the spec: `structFields.OmitEmpty(strct)`, the fields whose
omit-empty predicate does not hold on `strct`, in declared order. -/
def fields.OmitEmpty (fs : fields) (strct : Struct) : List field :=
  fs.list.filter (fun f => !f.Omit strct)

/-- Modelled from the spec: `f.EncodeValue(e, strct)` encodes the value the field
holds in `strct` through the value encoder of `e`, under the configuration of `e`. -/
def field.EncodeValue (f : field) (e : Encoder) (strct : Struct) : Enc :=
  e.EncodeValue (strct.FieldByIndex f.index)

/-- Modelled from the spec: `e.EncodeArrayLen(l)`, the array-length header, with the
same three size classes as `EncodeMapLen` and the array lead bytes. -/
def Encoder.EncodeArrayLen (e : Encoder) (l : Int) : Enc :=
  if l < 16 then
    e.writeCode (codes.FixedArrayLow ||| toCode l)
  else if l < 65536 then
    e.write2 codes.Array16 (toUint16 l)
  else
    e.write4 codes.Array32 (toUint32 l)

/-- `func encodeStructValueAsArray(e *Encoder, strct reflect.Value, fields []*field) error`. -/
def encodeStructValueAsArray (e : Encoder) (strct : Struct) (fields : List field) : Enc :=
  (e.EncodeArrayLen fields.length).andThen
    (forRange (fun f => f.EncodeValue e strct) fields)

/-- `func encodeStructValue(e *Encoder, strct reflect.Value) error`. -/
def encodeStructValue (e : Encoder) (strct : Struct) : Enc :=
  let structFields := if e.useJSONTag then strct.jsonStructs else strct.structs
  if e.structAsArray || structFields.AsArray then
    encodeStructValueAsArray e strct structFields.list
  else
    let fields := structFields.OmitEmpty strct
    (e.EncodeMapLen fields.length).andThen
      (forRange (fun (f : field) =>
        e.compress f.name (fun name =>
          (e.EncodeString name).andThen (f.EncodeValue e strct))) fields)

/-! ## Concrete collaborators used to run the code on examples -/

/-- Bytes of a short ASCII string in the MessagePack `fixstr` form. -/
def fixstr (s : String) : List Nat := (0xa0 ||| s.length) :: s.toList.map Char.toNat

/-- A value codec for scalars: strings as `fixstr`, small non-negative integers as
a positive fixint, booleans and nil by their markers; a nested map is refused. -/
def scalarCodec : Value → Chunk
  | Value.nil => ⟨[codes.Nil], none, []⟩
  | Value.bool b => ⟨[if b then 0xc3 else 0xc2], none, []⟩
  | Value.int i => ⟨[i.toNat % 128], none, []⟩
  | Value.str s => ⟨fixstr s, none, []⟩
  | Value.namedStr _ s => ⟨fixstr s, none, []⟩
  | Value.mapStringString _ => ⟨[], some ⟨"unsupported"⟩, []⟩

/-- An encoder with the default configuration, a sink that accepts every write,
and the scalar codecs. -/
def plain : Encoder where
  sortMapKeys := false
  structAsArray := false
  useJSONTag := false
  keysToCompressed := none
  w := fun _ _ => none
  stringCodec := fun s => ⟨fixstr s, none, []⟩
  valueCodecOf := fun _ => scalarCodec
  ifaceCodecOf := fun _ => scalarCodec

/-- The default encoder under the configuration `cfg`: the encoder a nested value is
encoded by when the enclosing encoder has the configuration `cfg`. -/
def underConfig (cfg : Config) : Encoder :=
  { plain with
    sortMapKeys := cfg.sortMapKeys
    structAsArray := cfg.structAsArray
    useJSONTag := cfg.useJSONTag
    keysToCompressed := cfg.keysToCompressed }

/-- A value codec that dispatches a nested `map[string]string` back to
`encodeMapStringStringValue` under the configuration it is given, as `EncodeValue`
and `Encode` do: the call hands the sink what that function writes, invokes the
transform where that function does, and returns what it returns.  Scalars are
encoded as by `scalarCodec`. -/
def reenter (cfg : Config) : Value → Chunk
  | Value.mapStringString m =>
    ⟨(encodeMapStringStringValue (underConfig cfg) m ⟨[], []⟩).2.out,
      (encodeMapStringStringValue (underConfig cfg) m ⟨[], []⟩).1,
      (encodeMapStringStringValue (underConfig cfg) m ⟨[], []⟩).2.calls⟩
  | v => scalarCodec v

/-- The default encoder with value encoders that re-enter this file for a nested
`map[string]string`. -/
def deep : Encoder := { plain with valueCodecOf := reenter, ifaceCodecOf := reenter }

/-- The empty sink. -/
def St.empty : St := ⟨[], []⟩

/-! ## Specification side

Nothing below is read by the functions above.  These definitions state what the
specification expects the functions to hand to the sink. -/

/-- The key emitted for the original key `k`: `k` itself when no key transform is
configured, the result of the transform on `k` when one is (and the transform
succeeds on `k`). -/
def Encoder.keyOf (e : Encoder) (k : String) : String :=
  match e.keysToCompressed with
  | none => k
  | some f =>
    match f k with
    | .ok r => r
    | .error _ => k

/-- The error of the key transform on `k`, if it is configured and fails on `k`. -/
def Encoder.keyErr (e : Encoder) (k : String) : Option Error :=
  match e.keysToCompressed with
  | none => none
  | some f =>
    match f k with
    | .ok _ => none
    | .error err => some err

/-- The transform invocations the functions of this file make for one textual key:
exactly one, on the original key, when a transform is configured, and none
otherwise. -/
def Encoder.keyCalls (e : Encoder) (k : String) : List String :=
  match e.keysToCompressed with
  | none => []
  | some _ => [k]

/-- The map-length header of the wire format for the count `n`: one byte with the
count inline below 16, a tag and a 16-bit count below 65536, a tag and the low 32
bits of the count otherwise. -/
def mapHeader (n : Nat) : List Nat :=
  if n < 16 then [0x80 + n]
  else if n < 65536 then [0xde, n / 256, n % 256]
  else [0xdf, n / 16777216 % 256, n / 65536 % 256, n / 256 % 256, n % 256]

/-- The array-length header of the wire format for the count `n`. -/
def arrayHeader (n : Nat) : List Nat :=
  if n < 16 then [0x90 + n]
  else if n < 65536 then [0xdc, n / 256, n % 256]
  else [0xdd, n / 16777216 % 256, n / 65536 % 256, n / 256 % 256, n % 256]

/-- Modelled from the spec: decoding is outside the sources.  Reads one map-length
header from the front of a byte sequence and returns the count it carries and the
bytes that follow it. -/
def decodeMapLen : List Nat → Option (Nat × List Nat)
  | [] => none
  | c :: rest =>
    if 0x80 ≤ c ∧ c ≤ 0x8f then some (c % 16, rest)
    else if c = 0xde then
      match rest with
      | b1 :: b0 :: rest => some (b1 * 256 + b0, rest)
      | _ => none
    else if c = 0xdf then
      match rest with
      | b3 :: b2 :: b1 :: b0 :: rest => some (((b3 * 256 + b2) * 256 + b1) * 256 + b0, rest)
      | _ => none
    else none

/-- The sink is offered the chunk `c` while it holds `out`: the error returned by
the call, and the bytes the call appended. -/
def Encoder.offer (e : Encoder) (out : List Nat) (c : Chunk) : Option Error × List Nat :=
  match e.w out c.bytes with
  | some err => (some err, [])
  | none => (c.err, c.bytes)

/-- The transform invocations logged when the sink, holding `out`, is offered the
chunk `c`: those of the call if the sink accepts the bytes, none if it refuses. -/
def Encoder.offerCalls (e : Encoder) (out : List Nat) (c : Chunk) : List String :=
  match e.w out c.bytes with
  | some _ => []
  | none => c.calls

/-- The steps one entry (or field) contributes, in order: the transform
invocations `own` that the function of this file makes for the entry itself, with
their outcome `callErr`, the key chunk (absent in array shape), and the value
chunk. -/
structure Plan where
  own : List String
  callErr : Option Error
  key : Option Chunk
  val : Chunk

/-- Bytes of the key of an entry. -/
def Plan.keyBytes (p : Plan) : List Nat :=
  match p.key with
  | none => []
  | some k => k.bytes

/-- Bytes of a complete entry: the key immediately followed by the value. -/
def Plan.bytes (p : Plan) : List Nat := p.keyBytes ++ p.val.bytes

/-- Transform invocations made inside the encoding of the key of an entry. -/
def Plan.keyNested (p : Plan) : List String :=
  match p.key with
  | none => []
  | some k => k.calls

/-- Transform invocations of a complete entry, in order: those the function makes
for the entry itself, then those made inside the encoding of its key, then those
made inside the encoding of its value. -/
def Plan.calls (p : Plan) : List String := p.own ++ p.keyNested ++ p.val.calls

/-- Offering the key of an entry to the sink holding `out`. -/
def Plan.offerKey (e : Encoder) (p : Plan) (out : List Nat) : Option Error × List Nat :=
  match p.key with
  | none => (none, [])
  | some k => e.offer out k

/-- Transform invocations logged when the key of an entry is offered to the sink
holding `out`. -/
def Plan.offerKeyCalls (e : Encoder) (p : Plan) (out : List Nat) : List String :=
  match p.key with
  | none => []
  | some k => e.offerCalls out k

/-- Every step of the entry succeeds when the sink holds `out`: the transform, the
key encode and the value encode. -/
def Plan.succeeds (e : Encoder) (p : Plan) (out : List Nat) : Prop :=
  p.callErr = none ∧ (p.offerKey e out).1 = none ∧
    (e.offer (out ++ p.keyBytes) p.val).1 = none

/-- The entry fails with `err` when the sink holds `out`; `written` is what it
appended up to the failure and `called` the transform invocations it made up to
the failure.  If the transform fails, nothing is appended and the only invocation
is the failing one.  If the key fails, `written` is what the failing key encode
itself appended.  If the value fails, `written` is the key followed by what the
failing value encode itself appended. -/
def Plan.fails (e : Encoder) (p : Plan) (out : List Nat) (err : Error)
    (written : List Nat) (called : List String) : Prop :=
  (p.callErr = some err ∧ written = [] ∧ called = p.own) ∨
  (p.callErr = none ∧ (p.offerKey e out).1 = some err ∧
    written = (p.offerKey e out).2 ∧ called = p.own ++ p.offerKeyCalls e out) ∨
  (p.callErr = none ∧ (p.offerKey e out).1 = none ∧
    (e.offer (out ++ p.keyBytes) p.val).1 = some err ∧
    written = p.keyBytes ++ (e.offer (out ++ p.keyBytes) p.val).2 ∧
    called = p.own ++ p.keyNested ++ e.offerCalls (out ++ p.keyBytes) p.val)

/-- The entry fails with `err` the way a step that appends nothing when it fails
would: `written` is empty for a failure in the transform or the key, and exactly
the key for a failure in the value.  Nothing is asked of `called`. -/
def Plan.failsClean (e : Encoder) (p : Plan) (out : List Nat) (err : Error)
    (written : List Nat) (_called : List String) : Prop :=
  (p.callErr = some err ∧ written = []) ∨
  (p.callErr = none ∧ (p.offerKey e out).1 = some err ∧ written = []) ∨
  (p.callErr = none ∧ (p.offerKey e out).1 = none ∧
    (e.offer (out ++ p.keyBytes) p.val).1 = some err ∧ written = p.keyBytes)

/-- Every entry of the list succeeds in turn, the first one starting with `out`
in the sink. -/
def allOk (e : Encoder) : List Plan → List Nat → Prop
  | [], _ => True
  | p :: ps, out => p.succeeds e out ∧ allOk e ps (out ++ p.bytes)

/-- The entry of `encodeMapValue` for `key`: only a key of dynamic type `string`
goes through the transform. -/
def planGeneric (e : Encoder) (m : List (Value × Value)) (key : Value) : Plan :=
  match key with
  | Value.str k =>
    ⟨e.keyCalls k, e.keyErr k, some (e.valueCodec (Value.str (e.keyOf k))),
      e.valueCodec (MapIndex m key)⟩
  | _ => ⟨[], none, some (e.valueCodec key), e.valueCodec (MapIndex m key)⟩

/-- The entry of a text-keyed encoder for the original key `k` and the value chunk
`val`: the key goes through `EncodeString`. -/
def planEntry (e : Encoder) (k : String) (val : Chunk) : Plan :=
  ⟨e.keyCalls k, e.keyErr k, some (e.stringCodec (e.keyOf k)), val⟩

/-- Entries of `encodeMapValue` in emission order. -/
def plansMapValue (e : Encoder) (m : List (Value × Value)) : List Plan :=
  (m.map Prod.fst).map (planGeneric e m)

/-- Entries of `encodeMapStringStringValue` in emission order.  On the sorted
path the value is the one the code looks up, `m[k]` with `k` as the transform
block left it. -/
def plansMapStringString (e : Encoder) (m : Entries String) : List Plan :=
  if e.sortMapKeys then
    (sortStrings (m.map Prod.fst)).map
      (fun k => planEntry e k (e.stringCodec (index "" m (e.keyOf k))))
  else
    m.map (fun p => planEntry e p.1 (e.stringCodec p.2))

/-- Entries of `encodeMapStringInterfaceValue` in emission order. -/
def plansMapStringInterface (e : Encoder) (m : Entries Value) : List Plan :=
  if e.sortMapKeys then
    (sortStrings (m.map Prod.fst)).map
      (fun k => planEntry e k (e.ifaceCodec (index Value.nil m (e.keyOf k))))
  else
    m.map (fun p => planEntry e p.1 (e.ifaceCodec p.2))

/-- The field set `encodeStructValue` consults for `strct`. -/
def Encoder.fieldsOf (e : Encoder) (strct : Struct) : fields :=
  if e.useJSONTag then strct.jsonStructs else strct.structs

/-- Whether `encodeStructValue` encodes `strct` in array shape. -/
def Encoder.arrayShape (e : Encoder) (strct : Struct) : Bool :=
  e.structAsArray || (e.fieldsOf strct).AsArray

/-- Entries of `encodeStructValue` in map shape, in emission order. -/
def plansStruct (e : Encoder) (strct : Struct) : List Plan :=
  ((e.fieldsOf strct).OmitEmpty strct).map
    (fun f => planEntry e f.name (e.valueCodec (strct.FieldByIndex f.index)))

/-- Entries of `encodeStructValueAsArray` on the field list `fs`, in emission order:
a value and no key for every field. -/
def plansArray (e : Encoder) (strct : Struct) (fs : List field) : List Plan :=
  fs.map (fun f => ⟨[], none, none, e.valueCodec (strct.FieldByIndex f.index)⟩)

/-- Running the key step of an entry. -/
def Plan.emitKey (e : Encoder) (p : Plan) : Enc :=
  match p.key with
  | none => Enc.ok
  | some k => e.emit k

/-- Running the steps of one entry in order, stopping at the first one that fails. -/
def Plan.run (e : Encoder) (p : Plan) : Enc := fun s =>
  let s1 : St := { s with calls := s.calls ++ p.own }
  match p.callErr with
  | some err => (some err, s1)
  | none => ((p.emitKey e).andThen (e.emit p.val)) s1

/-- The key `encodeMapValue` hands to `EncodeValue` for the original key `key`: a
key of dynamic type `string` is replaced by its transform, any other key is kept. -/
def Encoder.useKey (e : Encoder) (key : Value) : Value :=
  match key with
  | Value.str k => Value.str (e.keyOf k)
  | v => v

/-- A `map[int]int` with `2^32` entries: every `i` below `2^32` is a key, with the
value 0. -/
@[irreducible]
def hugeMap : List (Value × Value) :=
  (List.range 4294967296).map (fun (i : Nat) => (Value.int (i : Int), Value.int 0))

/-- The default encoder with the sort-keys flag set. -/
def sorting : Encoder := { plain with sortMapKeys := true }

/-- The default encoder with the sort-keys flag as given and a key transform that
puts the letter `k` in front of every key and never fails. -/
def tagging (sort : Bool) : Encoder :=
  { plain with sortMapKeys := sort, keysToCompressed := some (fun k => .ok ("k" ++ k)) }

/-- The struct value with fields `Name = "hi"` and `Count = 0`, where `Count` is
declared omit-empty and `Name` is not; the type does not ask for array shape. -/
def sample : Struct where
  vals := [Value.str "hi", Value.int 0]
  structs := ⟨[⟨"Name", 0, false⟩, ⟨"Count", 1, true⟩], false⟩
  jsonStructs := ⟨[⟨"name", 0, false⟩, ⟨"count", 1, true⟩], false⟩

/-- The struct value with fields `Name = "hi"` and `Count = 7`, declared as `sample`. -/
def sampleFull : Struct := { sample with vals := [Value.str "hi", Value.int 7] }

/-- The default encoder with the force-array flag set and the key transform as given. -/
def arraying (tr : Option (String → Except Error String)) : Encoder :=
  { plain with structAsArray := true, keysToCompressed := tr }

/-- An encode that aborts at the first failing step and returns that step's error.
`r` is the outcome of an encode started in state `s` that is to write the header
`H` and then the entries `ps`; `failure` says what a failing entry may leave in the
sink.
* The encode succeeds if and only if the header write and every step of every
  entry succeed, and then the sink has received the header and all the entries.
* If the header write fails with `err`, the encode returns `err` and the state is
  unchanged: nothing is written and the transform is not invoked.
* Otherwise, if the encode returns `err`, the entries split as `pre ++ p :: post`:
  every entry of `pre` succeeded, `p` failed with `err`, and the sink has received
  the header, the complete entries of `pre` and what `failure` allows for `p`;
  the transform has been invoked as the entries of `pre` and the failing entry
  invoke it; nothing of `post` was attempted. -/
def Aborts (failure : Encoder → Plan → List Nat → Error → List Nat → List String → Prop)
    (e : Encoder) (H : List Nat) (ps : List Plan) (s : St) (r : Option Error × St) : Prop :=
  (r.1 = none ↔ e.w s.out H = none ∧ allOk e ps (s.out ++ H)) ∧
  (r.1 = none →
    r.2 = ⟨s.out ++ H ++ ps.flatMap Plan.bytes, s.calls ++ ps.flatMap Plan.calls⟩) ∧
  (∀ err, e.w s.out H = some err → r = (some err, s)) ∧
  (∀ err, r.1 = some err → e.w s.out H = none →
    ∃ pre p post written called, ps = pre ++ p :: post ∧ allOk e pre (s.out ++ H) ∧
      failure e p (s.out ++ H ++ pre.flatMap Plan.bytes) err written called ∧
      r.2 = ⟨s.out ++ H ++ pre.flatMap Plan.bytes ++ written,
             s.calls ++ pre.flatMap Plan.calls ++ called⟩)

/-- A key transform that knows the key `a` only. -/
def knownKeys (k : String) : Except Error String :=
  if k = "a" then .ok "a" else .error ⟨"unknown key"⟩

/-- The default encoder with the key transform `knownKeys`. -/
def inner : Encoder := { plain with keysToCompressed := some knownKeys }

/-- As `inner`, with `Encode` dispatching a nested `map[string]string` to
`encodeMapStringStringValue` under the same configuration: the call hands the sink
what that function writes, invokes the transform where it does, and returns what
it returns. -/
def nesting : Encoder := { inner with ifaceCodecOf := reenter }

/-- The `map[string]interface{}` with the single entry `a`, whose value is the
`map[string]string` with the single entry `x:1`. -/
def nestedMap : Entries Value := [("a", Value.mapStringString (some [("x", "1")]))]

/-- Whether `b` is the lead byte of an array-length header of the wire format. -/
def isArrayLead (b : Nat) : Bool := (0x90 ≤ b && b ≤ 0x9f) || b == 0xdc || b == 0xdd

/-- Whether `b` is the lead byte of a map-length header of the wire format. -/
def isMapLead (b : Nat) : Bool := (0x80 ≤ b && b ≤ 0x8f) || b == 0xde || b == 0xdf

/-- The struct value `sample` with a type that declares array shape. -/
def arrayTyped : Struct :=
  { sample with structs := ⟨[⟨"Name", 0, false⟩, ⟨"Count", 1, true⟩], true⟩ }

/-- The encoder `deep` with the force-array flag set and the key transform as given. -/
def deepArraying (tr : Option (String → Except Error String)) : Encoder :=
  { deep with structAsArray := true, keysToCompressed := tr }

/-- The struct value of a type with the single field `M` of type `map[string]string`,
holding the map `x:1`. -/
def holder : Struct where
  vals := [Value.mapStringString (some [("x", "1")])]
  structs := ⟨[⟨"M", 0, false⟩], false⟩
  jsonStructs := ⟨[⟨"m", 0, false⟩], false⟩

/-- A key transform that fails on every key. -/
def refuseKeys (_ : String) : Except Error String := .error ⟨"no such key"⟩

/-! ## Lemmas on the `error`-returning computations -/

theorem andThen_eq_none {a b : Enc} {s s' : St} :
    a.andThen b s = (none, s') ↔ ∃ s1, a s = (none, s1) ∧ b s1 = (none, s') := by
  unfold Enc.andThen
  rcases h : a s with ⟨r, s1⟩
  cases r <;> simp

theorem andThen_eq_some {a b : Enc} {s s' : St} {err : Error} :
    a.andThen b s = (some err, s') ↔
      a s = (some err, s') ∨ ∃ s1, a s = (none, s1) ∧ b s1 = (some err, s') := by
  unfold Enc.andThen
  rcases h : a s with ⟨r, s1⟩
  cases r <;> simp

theorem forRange_map {α β : Type} (f : α → β) (body : β → Enc) (xs : List α) :
    forRange body (xs.map f) = forRange (fun x => body (f x)) xs := by
  induction xs with
  | nil => rfl
  | cons x xs ih => simp [forRange, ih]

theorem forRange_eq_some {α : Type} {body : α → Enc} {err : Error} :
    ∀ (xs : List α) (s s' : St), forRange body xs s = (some err, s') →
      ∃ pre x post s1, xs = pre ++ x :: post ∧ forRange body pre s = (none, s1) ∧
        body x s1 = (some err, s') := by
  intro xs
  induction xs with
  | nil => intro s s' h; simp [forRange, Enc.ok] at h
  | cons x xs ih =>
    intro s s' h
    rw [forRange, andThen_eq_some] at h
    rcases h with h | ⟨s1, h1, h2⟩
    · exact ⟨[], x, xs, s, rfl, rfl, h⟩
    · obtain ⟨pre, y, post, s2, hxs, hpre, hy⟩ := ih s1 s' h2
      refine ⟨x :: pre, y, post, s2, by simp [hxs], ?_, hy⟩
      rw [forRange, andThen_eq_none]
      exact ⟨s1, h1, hpre⟩

theorem emit_eq (e : Encoder) (c : Chunk) (s : St) :
    e.emit c s = ((e.offer s.out c).1,
      ⟨s.out ++ (e.offer s.out c).2, s.calls ++ e.offerCalls s.out c⟩) := by
  unfold Encoder.emit Encoder.offer Encoder.offerCalls
  cases h : e.w s.out c.bytes <;> simp

theorem offer_none {e : Encoder} {out : List Nat} {c : Chunk}
    (h : (e.offer out c).1 = none) :
    (e.offer out c).2 = c.bytes ∧ e.offerCalls out c = c.calls := by
  unfold Encoder.offer Encoder.offerCalls at *
  cases hw : e.w out c.bytes <;> simp_all

theorem emitKey_eq (e : Encoder) (p : Plan) (s : St) :
    p.emitKey e s = ((p.offerKey e s.out).1,
      ⟨s.out ++ (p.offerKey e s.out).2, s.calls ++ p.offerKeyCalls e s.out⟩) := by
  unfold Plan.emitKey Plan.offerKey Plan.offerKeyCalls
  cases p.key with
  | none => simp [Enc.ok]
  | some k => simp [emit_eq]

theorem offerKey_none {e : Encoder} {out : List Nat} {p : Plan}
    (h : (p.offerKey e out).1 = none) :
    (p.offerKey e out).2 = p.keyBytes ∧ p.offerKeyCalls e out = p.keyNested := by
  unfold Plan.offerKey Plan.keyBytes Plan.offerKeyCalls Plan.keyNested at *
  cases hk : p.key with
  | none => simp
  | some k => rw [hk] at h; exact offer_none h

theorem Plan.run_eq_none {e : Encoder} {p : Plan} {s s' : St} :
    p.run e s = (none, s') ↔
      p.succeeds e s.out ∧ s' = ⟨s.out ++ p.bytes, s.calls ++ p.calls⟩ := by
  unfold Plan.run Plan.succeeds Plan.bytes Plan.calls
  cases hc : p.callErr with
  | some err => simp
  | none =>
    simp only [andThen_eq_none, emit_eq, emitKey_eq, Prod.mk.injEq, true_and]
    constructor
    · rintro ⟨s1, ⟨hk, rfl⟩, hv, rfl⟩
      simp only at hv ⊢
      rw [(offerKey_none hk).1] at hv ⊢
      rw [(offer_none hv).1, (offer_none hv).2, (offerKey_none hk).2]
      simp [hk, hv]
    · rintro ⟨⟨hk, hv⟩, rfl⟩
      refine ⟨_, ⟨hk, rfl⟩, ?_⟩
      simp only
      rw [(offerKey_none hk).1]
      refine ⟨hv, ?_⟩
      rw [(offer_none hv).1, (offer_none hv).2, (offerKey_none hk).2]
      simp

theorem Plan.run_eq_some {e : Encoder} {p : Plan} {s s' : St} {err : Error} :
    p.run e s = (some err, s') ↔
      ∃ written called, p.fails e s.out err written called ∧
        s' = ⟨s.out ++ written, s.calls ++ called⟩ := by
  unfold Plan.run Plan.fails
  cases hc : p.callErr with
  | some err0 =>
    simp only [Prod.mk.injEq, Option.some.injEq, false_and, or_false, reduceCtorEq]
    constructor
    · rintro ⟨rfl, rfl⟩
      exact ⟨[], p.own, ⟨rfl, rfl, rfl⟩, by simp⟩
    · rintro ⟨written, called, ⟨rfl, rfl, rfl⟩, rfl⟩
      simp
  | none =>
    simp only [andThen_eq_some, emit_eq, emitKey_eq, Prod.mk.injEq, true_and, false_and,
      false_or, reduceCtorEq]
    constructor
    · rintro (⟨hk, rfl⟩ | ⟨s1, ⟨hk, rfl⟩, hv, rfl⟩)
      · exact ⟨_, _, Or.inl ⟨hk, rfl, rfl⟩, by simp⟩
      · simp only at hv ⊢
        rw [(offerKey_none hk).1] at hv ⊢
        rw [(offerKey_none hk).2]
        exact ⟨_, _, Or.inr ⟨hk, hv, rfl, rfl⟩, by simp⟩
    · rintro ⟨written, called, (⟨hk, rfl, rfl⟩ | ⟨hk, hv, rfl, rfl⟩), rfl⟩
      · exact Or.inl ⟨hk, by simp⟩
      · refine Or.inr ⟨_, ⟨hk, rfl⟩, ?_⟩
        simp only
        rw [(offerKey_none hk).1, (offerKey_none hk).2]
        exact ⟨hv, by simp⟩

theorem loop_eq_none {e : Encoder} :
    ∀ (ps : List Plan) (s s' : St), forRange (Plan.run e) ps s = (none, s') ↔
      allOk e ps s.out ∧
        s' = ⟨s.out ++ ps.flatMap Plan.bytes, s.calls ++ ps.flatMap Plan.calls⟩ := by
  intro ps
  induction ps with
  | nil =>
    intro s s'
    simp only [forRange, Enc.ok, allOk, List.flatMap_nil, List.append_nil, Prod.mk.injEq,
      true_and]
    constructor <;> intro h <;> subst h <;> rfl
  | cons p ps ih =>
    intro s s'
    rw [forRange, andThen_eq_none]
    simp only [Plan.run_eq_none, ih, allOk, List.flatMap_cons]
    constructor
    · rintro ⟨s1, ⟨hp, rfl⟩, hps, rfl⟩
      exact ⟨⟨hp, hps⟩, by simp⟩
    · rintro ⟨⟨hp, hps⟩, rfl⟩
      exact ⟨_, ⟨hp, rfl⟩, hps, by simp⟩

theorem loop_eq_some {e : Encoder} {ps : List Plan} {s s' : St} {err : Error}
    (h : forRange (Plan.run e) ps s = (some err, s')) :
    ∃ pre p post written called, ps = pre ++ p :: post ∧ allOk e pre s.out ∧
      p.fails e (s.out ++ pre.flatMap Plan.bytes) err written called ∧
      s' = ⟨s.out ++ pre.flatMap Plan.bytes ++ written,
            s.calls ++ pre.flatMap Plan.calls ++ called⟩ := by
  obtain ⟨pre, p, post, s1, hps, hpre, hp⟩ := forRange_eq_some ps s s' h
  rw [loop_eq_none] at hpre
  obtain ⟨hok, rfl⟩ := hpre
  rw [Plan.run_eq_some] at hp
  obtain ⟨written, called, hf, rfl⟩ := hp
  exact ⟨pre, p, post, written, called, hps, hok, hf, rfl⟩

theorem lor_low (n : Nat) (h : n < 16) : 0x80 ||| n = 0x80 + n ∧ 0x90 ||| n = 0x90 + n := by
  interval_cases n <;> decide

theorem toNat_emod (n : Nat) (k : Nat) : ((n : Int) % (k : Int)).toNat = n % k := by
  have : ((n : Int) % (k : Int)) = ((n % k : Nat) : Int) := by push_cast; rfl
  rw [this, Int.toNat_ofNat]

theorem header_bytes (n : Nat) :
    (n < 16 → (0x80 ||| toCode n) = 0x80 + n ∧ (0x90 ||| toCode n) = 0x90 + n) ∧
    (n < 65536 → toUint16 n / 256 % 256 = n / 256 ∧ toUint16 n % 256 = n % 256) ∧
    (toUint32 n / 16777216 % 256 = n / 16777216 % 256 ∧
      toUint32 n / 65536 % 256 = n / 65536 % 256 ∧
      toUint32 n / 256 % 256 = n / 256 % 256 ∧ toUint32 n % 256 = n % 256) := by
  have e1 : toCode n = n % 256 := toNat_emod n 256
  have e2 : toUint16 n = n % 65536 := toNat_emod n 65536
  have e3 : toUint32 n = n % 4294967296 := toNat_emod n 4294967296
  refine ⟨fun h => ?_, fun h => ?_, ?_⟩
  · have : n % 256 = n := by omega
    rw [e1, this]
    exact lor_low n h
  · rw [e2]; omega
  · rw [e3]; omega

theorem EncodeMapLen_eq (e : Encoder) (n : Nat) :
    e.EncodeMapLen (n : Int) = e.write (mapHeader n) := by
  obtain ⟨h16, h64, h32a, h32b, h32c, h32d⟩ := header_bytes n
  unfold Encoder.EncodeMapLen mapHeader Encoder.writeCode Encoder.write2 Encoder.write4
    codes.FixedMapLow codes.Map16 codes.Map32
  by_cases h1 : n < 16
  · have h1' : (n : Int) < 16 := by exact_mod_cast h1
    rw [if_pos h1, if_pos h1', (h16 h1).1]
  · have h1' : ¬ (n : Int) < 16 := by exact_mod_cast h1
    rw [if_neg h1, if_neg h1']
    by_cases h2 : n < 65536
    · have h2' : (n : Int) < 65536 := by exact_mod_cast h2
      rw [if_pos h2, if_pos h2', (h64 h2).1, (h64 h2).2]
    · have h2' : ¬ (n : Int) < 65536 := by exact_mod_cast h2
      rw [if_neg h2, if_neg h2', h32a, h32b, h32c, h32d]

theorem EncodeArrayLen_eq (e : Encoder) (n : Nat) :
    e.EncodeArrayLen (n : Int) = e.write (arrayHeader n) := by
  obtain ⟨h16, h64, h32a, h32b, h32c, h32d⟩ := header_bytes n
  unfold Encoder.EncodeArrayLen arrayHeader Encoder.writeCode Encoder.write2 Encoder.write4
    codes.FixedArrayLow codes.Array16 codes.Array32
  by_cases h1 : n < 16
  · have h1' : (n : Int) < 16 := by exact_mod_cast h1
    rw [if_pos h1, if_pos h1', (h16 h1).2]
  · have h1' : ¬ (n : Int) < 16 := by exact_mod_cast h1
    rw [if_neg h1, if_neg h1']
    by_cases h2 : n < 65536
    · have h2' : (n : Int) < 65536 := by exact_mod_cast h2
      rw [if_pos h2, if_pos h2', (h64 h2).1, (h64 h2).2]
    · have h2' : ¬ (n : Int) < 65536 := by exact_mod_cast h2
      rw [if_neg h2, if_neg h2', h32a, h32b, h32c, h32d]

theorem compress_eq (e : Encoder) (k : String) (val : String → Chunk) :
    e.compress k (fun k1 => (e.EncodeString k1).andThen (e.emit (val k1))) =
      (planEntry e k (val (e.keyOf k))).run e := by
  funext s
  unfold Encoder.compress planEntry Plan.run Plan.emitKey Encoder.keyCalls Encoder.keyErr
    Encoder.keyOf Encoder.EncodeString callTransform
  cases hk : e.keysToCompressed with
  | none => simp
  | some f =>
    cases hf : f k with
    | error err => simp [hf]
    | ok r => simp [hf]

theorem generic_body_eq (e : Encoder) (m : List (Value × Value)) (key : Value) :
    (match e.keysToCompressed with
      | none => (e.EncodeValue key).andThen (e.EncodeValue (MapIndex m key))
      | some f =>
        match key with
        | Value.str k => callTransform f k (fun keyValue =>
            (e.EncodeValue (Value.str keyValue)).andThen (e.EncodeValue (MapIndex m key)))
        | _ => (e.EncodeValue key).andThen (e.EncodeValue (MapIndex m key))) =
      (planGeneric e m key).run e := by
  funext s
  unfold planGeneric Plan.run Plan.emitKey Encoder.keyCalls Encoder.keyErr
    Encoder.keyOf Encoder.EncodeValue callTransform
  cases hk : e.keysToCompressed with
  | none => cases key <;> simp
  | some f =>
    cases key with
    | str k =>
      cases hf : f k with
      | error err => simp [hf]
      | ok r => simp [hf]
    | _ => simp

theorem encodeMapValue_eq (e : Encoder) (m : List (Value × Value)) :
    encodeMapValue e (some m) =
      (e.write (mapHeader m.length)).andThen (forRange (Plan.run e) (plansMapValue e m)) := by
  unfold encodeMapValue plansMapValue
  simp only [EncodeMapLen_eq, generic_body_eq]
  rw [forRange_map (planGeneric e m) (Plan.run e) (m.map Prod.fst)]

theorem encodeMapStringStringValue_eq (e : Encoder) (m : Entries String) :
    encodeMapStringStringValue e (some m) =
      (e.write (mapHeader m.length)).andThen
        (forRange (Plan.run e) (plansMapStringString e m)) := by
  unfold encodeMapStringStringValue plansMapStringString Encoder.encodeSortedMapStringString
  simp only [EncodeMapLen_eq]
  have h1 : ∀ p : String × String,
      e.compress p.1 (fun mk => (e.EncodeString mk).andThen (e.EncodeString p.2)) =
        (planEntry e p.1 (e.stringCodec p.2)).run e :=
    fun p => compress_eq e p.1 (fun _ => e.stringCodec p.2)
  have h2 : ∀ k : String,
      e.compress k (fun k => (e.EncodeString k).andThen (e.EncodeString (index "" m k))) =
        (planEntry e k (e.stringCodec (index "" m (e.keyOf k)))).run e :=
    fun k => compress_eq e k (fun k1 => e.stringCodec (index "" m k1))
  simp only [h1, h2]
  cases e.sortMapKeys <;> simp [forRange_map]

theorem encodeMapStringInterfaceValue_eq (e : Encoder) (m : Entries Value) :
    encodeMapStringInterfaceValue e (some m) =
      (e.write (mapHeader m.length)).andThen
        (forRange (Plan.run e) (plansMapStringInterface e m)) := by
  unfold encodeMapStringInterfaceValue plansMapStringInterface
    Encoder.encodeSortedMapStringInterface
  simp only [EncodeMapLen_eq]
  have h1 : ∀ p : String × Value,
      e.compress p.1 (fun mk => (e.EncodeString mk).andThen (e.Encode p.2)) =
        (planEntry e p.1 (e.ifaceCodec p.2)).run e :=
    fun p => compress_eq e p.1 (fun _ => e.ifaceCodec p.2)
  have h2 : ∀ k : String,
      e.compress k (fun k => (e.EncodeString k).andThen (e.Encode (index Value.nil m k))) =
        (planEntry e k (e.ifaceCodec (index Value.nil m (e.keyOf k)))).run e :=
    fun k => compress_eq e k (fun k1 => e.ifaceCodec (index Value.nil m k1))
  simp only [h1, h2]
  cases e.sortMapKeys <;> simp [forRange_map]

theorem encodeStructValueAsArray_eq (e : Encoder) (strct : Struct) (fs : List field) :
    encodeStructValueAsArray e strct fs =
      (e.write (arrayHeader fs.length)).andThen
        (forRange (Plan.run e) (plansArray e strct fs)) := by
  unfold encodeStructValueAsArray plansArray
  simp only [EncodeArrayLen_eq]
  rw [forRange_map]
  have h1 : ∀ f : field, f.EncodeValue e strct =
      Plan.run e ⟨[], none, none, e.valueCodec (strct.FieldByIndex f.index)⟩ := by
    intro f
    funext s
    simp [field.EncodeValue, Encoder.EncodeValue, Plan.run, Plan.emitKey, Enc.andThen, Enc.ok]
  simp only [h1]

theorem encodeStructValue_array (e : Encoder) (strct : Struct)
    (h : e.arrayShape strct = true) :
    encodeStructValue e strct =
      (e.write (arrayHeader (e.fieldsOf strct).list.length)).andThen
        (forRange (Plan.run e) (plansArray e strct (e.fieldsOf strct).list)) := by
  unfold encodeStructValue
  simp only
  unfold Encoder.arrayShape Encoder.fieldsOf at h
  rw [if_pos h, encodeStructValueAsArray_eq]
  rfl

theorem encodeStructValue_map (e : Encoder) (strct : Struct)
    (h : e.arrayShape strct = false) :
    encodeStructValue e strct =
      (e.write (mapHeader ((e.fieldsOf strct).OmitEmpty strct).length)).andThen
        (forRange (Plan.run e) (plansStruct e strct)) := by
  unfold encodeStructValue
  simp only
  unfold Encoder.arrayShape Encoder.fieldsOf at h
  rw [if_neg (by simp [h])]
  unfold plansStruct Encoder.fieldsOf
  simp only [EncodeMapLen_eq]
  have h1 : ∀ f : field,
      e.compress f.name (fun name => (e.EncodeString name).andThen (f.EncodeValue e strct)) =
        (planEntry e f.name (e.valueCodec (strct.FieldByIndex f.index))).run e :=
    fun f => compress_eq e f.name (fun _ => e.valueCodec (strct.FieldByIndex f.index))
  simp only [h1]
  rw [forRange_map]

theorem write_eq (e : Encoder) (H : List Nat) (s : St) :
    e.write H s =
      match e.w s.out H with
      | some err => (some err, s)
      | none => (none, ⟨s.out ++ H, s.calls⟩) := by
  unfold Encoder.write Encoder.emit
  cases e.w s.out H <;> simp

theorem script_eq_none {e : Encoder} {H : List Nat} {ps : List Plan} {s s' : St} :
    (e.write H).andThen (forRange (Plan.run e) ps) s = (none, s') ↔
      e.w s.out H = none ∧ allOk e ps (s.out ++ H) ∧
        s' = ⟨s.out ++ H ++ ps.flatMap Plan.bytes, s.calls ++ ps.flatMap Plan.calls⟩ := by
  rw [andThen_eq_none]
  simp only [write_eq, loop_eq_none]
  cases hw : e.w s.out H with
  | some err => simp
  | none =>
    simp only [Prod.mk.injEq, true_and]
    constructor
    · rintro ⟨s1, rfl, h1, rfl⟩
      exact ⟨h1, rfl⟩
    · rintro ⟨h1, rfl⟩
      exact ⟨_, rfl, h1, rfl⟩

theorem script_header_refused {e : Encoder} {H : List Nat} {ps : List Plan} {s : St}
    {err : Error} (h : e.w s.out H = some err) :
    (e.write H).andThen (forRange (Plan.run e) ps) s = (some err, s) := by
  rw [andThen_eq_some]
  left
  rw [write_eq, h]

theorem script_eq_some {e : Encoder} {H : List Nat} {ps : List Plan} {s s' : St}
    {err : Error} (h : (e.write H).andThen (forRange (Plan.run e) ps) s = (some err, s'))
    (hw : e.w s.out H = none) :
    ∃ pre p post written called, ps = pre ++ p :: post ∧ allOk e pre (s.out ++ H) ∧
      p.fails e (s.out ++ H ++ pre.flatMap Plan.bytes) err written called ∧
      s' = ⟨s.out ++ H ++ pre.flatMap Plan.bytes ++ written,
            s.calls ++ pre.flatMap Plan.calls ++ called⟩ := by
  rw [andThen_eq_some] at h
  simp only [write_eq, hw] at h
  rcases h with h | ⟨s1, h1, h2⟩
  · simp at h
  · simp only [Prod.mk.injEq, true_and] at h1
    subst h1
    exact loop_eq_some h2

theorem decodeMapLen_mapHeader (n : Nat) (h : n < 4294967296) (rest : List Nat) :
    decodeMapLen (mapHeader n ++ rest) = some (n, rest) := by
  unfold mapHeader
  by_cases h1 : n < 16
  · rw [if_pos h1]
    have : (0x80 ≤ 0x80 + n ∧ 0x80 + n ≤ 0x8f) := by omega
    simp only [List.singleton_append, decodeMapLen, if_pos this]
    congr 2
    omega
  · rw [if_neg h1]
    by_cases h2 : n < 65536
    · rw [if_pos h2]
      simp only [List.cons_append, List.nil_append, decodeMapLen]
      norm_num
      omega
    · rw [if_neg h2]
      simp only [List.cons_append, List.nil_append, decodeMapLen]
      norm_num
      omega

theorem bytes_plansMapValue (e : Encoder) (m : List (Value × Value)) :
    (plansMapValue e m).flatMap Plan.bytes =
      m.flatMap (fun p =>
        (e.valueCodec (e.useKey p.1)).bytes ++ (e.valueCodec (MapIndex m p.1)).bytes) := by
  unfold plansMapValue
  rw [List.map_map, List.flatMap_map]
  congr 1
  funext p
  rcases p with ⟨key, v⟩
  cases key <;> rfl

theorem bytes_planEntry {α : Type} (e : Encoder) (key : α → String) (val : α → Chunk)
    (xs : List α) :
    (xs.map (fun x => planEntry e (key x) (val x))).flatMap Plan.bytes =
      xs.flatMap (fun x => (e.stringCodec (e.keyOf (key x))).bytes ++ (val x).bytes) := by
  rw [List.flatMap_map]
  rfl

theorem calls_planEntry {α : Type} (e : Encoder) (key : α → String) (val : α → Chunk)
    (xs : List α) :
    (xs.map (fun x => planEntry e (key x) (val x))).flatMap Plan.calls =
      xs.flatMap (fun x =>
        e.keyCalls (key x) ++ (e.stringCodec (e.keyOf (key x))).calls ++ (val x).calls) := by
  rw [List.flatMap_map]
  rfl

theorem length_sortStrings (keys : List String) : (sortStrings keys).length = keys.length :=
  List.length_insertionSort _ _

/-- The pairs `encodeMapStringStringValue` emits: original key and emitted value. -/
theorem pairs_MapStringString (e : Encoder) (m : Entries String) :
    ∃ kvs : List (String × String),
      kvs.map Prod.fst = (if e.sortMapKeys then sortStrings (m.map Prod.fst) else m.map Prod.fst) ∧
      (e.sortMapKeys = false → kvs = m) ∧
      (plansMapStringString e m).flatMap Plan.bytes =
        kvs.flatMap (fun kv =>
          (e.stringCodec (e.keyOf kv.1)).bytes ++ (e.stringCodec kv.2).bytes) ∧
      (plansMapStringString e m).flatMap Plan.calls =
        kvs.flatMap (fun kv => e.keyCalls kv.1 ++ (e.stringCodec (e.keyOf kv.1)).calls ++
          (e.stringCodec kv.2).calls) := by
  unfold plansMapStringString
  cases hs : e.sortMapKeys with
  | false =>
    refine ⟨m, by simp, fun _ => rfl, ?_, ?_⟩
    · simp only [Bool.false_eq_true, if_false]
      exact bytes_planEntry e Prod.fst (fun p => e.stringCodec p.2) m
    · simp only [Bool.false_eq_true, if_false]
      exact calls_planEntry e Prod.fst (fun p => e.stringCodec p.2) m
  | true =>
    refine ⟨(sortStrings (m.map Prod.fst)).map (fun k => (k, index "" m (e.keyOf k))),
      by simp [List.map_map, Function.comp_def], by simp, ?_, ?_⟩
    · simp only [if_true]
      rw [List.flatMap_map, List.flatMap_map]
      rfl
    · simp only [if_true]
      rw [List.flatMap_map, List.flatMap_map]
      rfl

/-- The pairs `encodeMapStringInterfaceValue` emits: original key and emitted value. -/
theorem pairs_MapStringInterface (e : Encoder) (m : Entries Value) :
    ∃ kvs : List (String × Value),
      kvs.map Prod.fst = (if e.sortMapKeys then sortStrings (m.map Prod.fst) else m.map Prod.fst) ∧
      (e.sortMapKeys = false → kvs = m) ∧
      (plansMapStringInterface e m).flatMap Plan.bytes =
        kvs.flatMap (fun kv =>
          (e.stringCodec (e.keyOf kv.1)).bytes ++ (e.ifaceCodec kv.2).bytes) ∧
      (plansMapStringInterface e m).flatMap Plan.calls =
        kvs.flatMap (fun kv => e.keyCalls kv.1 ++ (e.stringCodec (e.keyOf kv.1)).calls ++
          (e.ifaceCodec kv.2).calls) := by
  unfold plansMapStringInterface
  cases hs : e.sortMapKeys with
  | false =>
    refine ⟨m, by simp, fun _ => rfl, ?_, ?_⟩
    · simp only [Bool.false_eq_true, if_false]
      exact bytes_planEntry e Prod.fst (fun p => e.ifaceCodec p.2) m
    · simp only [Bool.false_eq_true, if_false]
      exact calls_planEntry e Prod.fst (fun p => e.ifaceCodec p.2) m
  | true =>
    refine ⟨(sortStrings (m.map Prod.fst)).map (fun k => (k, index Value.nil m (e.keyOf k))),
      by simp [List.map_map, Function.comp_def], by simp, ?_, ?_⟩
    · simp only [if_true]
      rw [List.flatMap_map, List.flatMap_map]
      rfl
    · simp only [if_true]
      rw [List.flatMap_map, List.flatMap_map]
      rfl

theorem MapIndex_mem (m : List (Value × Value)) (key : Value) :
    MapIndex m key = Value.nil ∨ MapIndex m key ∈ m.map Prod.snd := by
  unfold MapIndex
  cases h : m.find? (fun p => p.1 == key) with
  | none => exact Or.inl rfl
  | some p => exact Or.inr (List.mem_map.mpr ⟨p, List.mem_of_find?_eq_some h, rfl⟩)

theorem plain_int_keys_allOk (m : List (Value × Value))
    (hv : ∀ key, (scalarCodec (MapIndex m key)).err = none) :
    ∀ (keys : List Value), (∀ k ∈ keys, ∃ i, k = Value.int i) →
      ∀ out, allOk plain (keys.map (planGeneric plain m)) out := by
  intro keys
  induction keys with
  | nil => intro _ out; trivial
  | cons k keys ih =>
    intro hk out
    obtain ⟨i, rfl⟩ := hk k (List.mem_cons_self _ _)
    exact ⟨⟨rfl, rfl, hv _⟩, ih (fun k hk2 => hk k (List.mem_cons_of_mem _ hk2)) _⟩

theorem length_hugeMap : hugeMap.length = 4294967296 := by
  unfold hugeMap
  rw [List.length_map, List.length_range]

theorem nodup_hugeMap : (hugeMap.map Prod.fst).Nodup := by
  unfold hugeMap
  rw [List.map_map]
  refine List.Nodup.map ?_ (List.nodup_range _)
  intro i j h
  simpa using h

theorem hugeMap_allOk (out : List Nat) : allOk plain (plansMapValue plain hugeMap) out := by
  have hv : ∀ key, (scalarCodec (MapIndex hugeMap key)).err = none := by
    intro key
    rcases MapIndex_mem hugeMap key with h | h
    · rw [h]; rfl
    · obtain ⟨p, hp, hp2⟩ := List.mem_map.mp h
      rw [← hp2]
      unfold hugeMap at hp
      obtain ⟨i, -, rfl⟩ := List.mem_map.mp hp
      rfl
  refine plain_int_keys_allOk hugeMap hv _ ?_ out
  intro k hk
  obtain ⟨p, hp, rfl⟩ := List.mem_map.mp hk
  unfold hugeMap at hp
  obtain ⟨i, -, rfl⟩ := List.mem_map.mp hp
  exact ⟨_, rfl⟩

theorem sortStrings_eq (keys : List String) :
    sortStrings keys = keys.insertionSort (· ≤ ·) := by
  unfold sortStrings
  induction keys with
  | nil => rfl
  | cons a l ih =>
    simp only [List.insertionSort]
    rw [ih]
    generalize List.insertionSort (· ≤ ·) l = t
    induction t with
    | nil => rfl
    | cons b t iht =>
      simp only [List.orderedInsert, String.le_iff_toList_le, iht]

theorem sortStrings_perm (keys : List String) : (sortStrings keys).Perm keys := by
  rw [sortStrings_eq]
  exact List.perm_insertionSort _ _

theorem sortStrings_sorted (keys : List String) (h : keys.Nodup) :
    (sortStrings keys).Sorted (· < ·) := by
  have hle : (sortStrings keys).Sorted (· ≤ ·) := by
    rw [sortStrings_eq]
    exact List.sorted_insertionSort _ _
  exact hle.lt_of_le ((sortStrings_perm keys).nodup_iff.mpr h)

theorem script_aborts (e : Encoder) (H : List Nat) (ps : List Plan) (s : St) :
    Aborts Plan.fails e H ps s ((e.write H).andThen (forRange (Plan.run e) ps) s) := by
  rcases hr : (e.write H).andThen (forRange (Plan.run e) ps) s with ⟨r, s'⟩
  refine ⟨⟨fun h => ?_, fun h => ?_⟩, fun h => ?_, fun err h => ?_, fun err h hw => ?_⟩
  · simp only at h
    subst h
    exact ⟨(script_eq_none.mp hr).1, (script_eq_none.mp hr).2.1⟩
  · have := script_eq_none.mpr ⟨h.1, h.2, rfl⟩
    rw [hr] at this
    exact congrArg Prod.fst this
  · simp only at h
    subst h
    exact (script_eq_none.mp hr).2.2
  · rw [← hr]
    exact script_header_refused h
  · simp only at h
    subst h
    exact script_eq_some hr hw

theorem script_out (e : Encoder) (H : List Nat) (ps : List Plan) (s : St) :
    ((e.write H).andThen (forRange (Plan.run e) ps) s).2.out = s.out ∨
    ∃ X, ((e.write H).andThen (forRange (Plan.run e) ps) s).2.out = s.out ++ H ++ X := by
  rcases hr : (e.write H).andThen (forRange (Plan.run e) ps) s with ⟨r, s'⟩
  cases r with
  | none =>
    rw [script_eq_none] at hr
    obtain ⟨-, -, rfl⟩ := hr
    exact Or.inr ⟨_, rfl⟩
  | some err =>
    cases hw : e.w s.out H with
    | some err0 =>
      rw [script_header_refused hw] at hr
      cases hr
      exact Or.inl rfl
    | none =>
      obtain ⟨pre, p, post, written, called, -, -, -, rfl⟩ := script_eq_some hr hw
      exact Or.inr ⟨pre.flatMap Plan.bytes ++ written, by simp⟩

theorem lead_of_headers (n : Nat) :
    (∃ b t, arrayHeader n = b :: t ∧ isArrayLead b = true ∧ isMapLead b = false) ∧
    (∃ b t, mapHeader n = b :: t ∧ isMapLead b = true ∧ isArrayLead b = false) := by
  unfold arrayHeader mapHeader
  by_cases h1 : n < 16
  · simp only [if_pos h1]
    refine ⟨⟨_, _, rfl, ?_, ?_⟩, ⟨_, _, rfl, ?_, ?_⟩⟩ <;>
      simp [isArrayLead, isMapLead] <;> omega
  · by_cases h2 : n < 65536
    · simp only [if_neg h1, if_pos h2]
      exact ⟨⟨_, _, rfl, by decide, by decide⟩, ⟨_, _, rfl, by decide, by decide⟩⟩
    · simp only [if_neg h1, if_neg h2]
      exact ⟨⟨_, _, rfl, by decide, by decide⟩, ⟨_, _, rfl, by decide, by decide⟩⟩

theorem first_byte_of_script {e : Encoder} {H : List Nat} {ps : List Plan} {s : St}
    {b : Nat} {rest : List Nat}
    (h : ((e.write H).andThen (forRange (Plan.run e) ps) s).2.out = s.out ++ b :: rest)
    {c : Nat} {t : List Nat} (hH : H = c :: t) : b = c := by
  rcases script_out e H ps s with h1 | ⟨X, h1⟩
  · rw [h1] at h
    have := congrArg List.length h
    simp at this
  · rw [h1, hH, List.append_assoc] at h
    have := List.append_cancel_left h
    simp only [List.cons_append] at this
    exact ((List.cons.inj this).1).symm

theorem planGeneric_not_str (e : Encoder) (m : List (Value × Value)) (key : Value)
    (h : ∀ k, key ≠ Value.str k) :
    planGeneric e m key =
      ⟨[], none, some (e.valueCodec key), e.valueCodec (MapIndex m key)⟩ := by
  cases key with
  | str k => exact absurd rfl (h k)
  | _ => rfl

theorem plansMapValue_not_str (e : Encoder) (m : List (Value × Value))
    (h : ∀ p ∈ m, ∀ k, p.1 ≠ Value.str k) :
    plansMapValue e m =
      m.map (fun p => ⟨[], none, some (e.valueCodec p.1), e.valueCodec (MapIndex m p.1)⟩) := by
  unfold plansMapValue
  rw [List.map_map]
  exact List.map_congr_left (fun p hp => planGeneric_not_str e m p.1 (h p hp))

theorem index_of_mem {ν : Type} (zero : ν) :
    ∀ {m : Entries ν}, (m.map Prod.fst).Nodup → ∀ {k : String} {v : ν}, (k, v) ∈ m →
      index zero m k = v := by
  intro m
  induction m with
  | nil => intro _ k v h; simp at h
  | cons p m ih =>
    intro nd k v h
    rw [List.map_cons, List.nodup_cons] at nd
    unfold index
    rcases List.mem_cons.mp h with h | h
    · subst h
      simp [List.find?_cons]
    · have hne : p.1 ≠ k := by
        intro hpk
        exact nd.1 (hpk ▸ List.mem_map.mpr ⟨(k, v), h, rfl⟩)
      have hbeq : (p.1 == k) = false := by simpa using hne
      simp only [List.find?_cons, hbeq]
      exact ih nd.2 h

theorem index_of_not_mem {ν : Type} (zero : ν) :
    ∀ {m : Entries ν} {k : String}, k ∉ m.map Prod.fst → index zero m k = zero := by
  intro m k h
  unfold index
  have : m.find? (fun p => p.1 == k) = none := by
    rw [List.find?_eq_none]
    intro p hp hpk
    exact h (List.mem_map.mpr ⟨p, hp, by simpa using hpk⟩)
  rw [this]

theorem index_perm {ν : Type} (zero : ν) {m1 m2 : Entries ν}
    (nd : (m1.map Prod.fst).Nodup) (hp : m1.Perm m2) (k : String) :
    index zero m1 k = index zero m2 k := by
  have nd2 : (m2.map Prod.fst).Nodup := (hp.map Prod.fst).nodup_iff.mp nd
  by_cases hk : k ∈ m1.map Prod.fst
  · obtain ⟨p, hp1, rfl⟩ := List.mem_map.mp hk
    rw [index_of_mem zero nd (v := p.2) hp1, index_of_mem zero nd2 (v := p.2) (hp.mem_iff.mp hp1)]
  · have hk2 : k ∉ m2.map Prod.fst := fun h => hk ((hp.map Prod.fst).mem_iff.mpr h)
    rw [index_of_not_mem zero hk, index_of_not_mem zero hk2]

theorem sortStrings_sorted_le (keys : List String) : (sortStrings keys).Sorted (· ≤ ·) := by
  rw [sortStrings_eq]
  exact List.sorted_insertionSort _ _

theorem sortStrings_congr {l1 l2 : List String} (h : l1.Perm l2) :
    sortStrings l1 = sortStrings l2 :=
  List.eq_of_perm_of_sorted
    (((sortStrings_perm l1).trans h).trans (sortStrings_perm l2).symm)
    (sortStrings_sorted_le l1) (sortStrings_sorted_le l2)

theorem sortStrings_of_sorted {l1 l2 : List String} (h : l2.Perm l1)
    (hs : l2.Sorted (· ≤ ·)) : sortStrings l1 = l2 :=
  List.eq_of_perm_of_sorted ((sortStrings_perm l1).trans h.symm) (sortStrings_sorted_le l1) hs

theorem keyOf_none {e : Encoder} (h : e.keysToCompressed = none) (k : String) :
    e.keyOf k = k := by
  unfold Encoder.keyOf
  rw [h]

theorem ascending_perm {ν : Type} (zero : ν) {m : Entries ν} (nd : (m.map Prod.fst).Nodup) :
    ((sortStrings (m.map Prod.fst)).map (fun k => (k, index zero m k))).Perm m := by
  have hkeys : ((sortStrings (m.map Prod.fst)).map (fun k => (k, index zero m k))).map
      Prod.fst = sortStrings (m.map Prod.fst) := by
    rw [List.map_map]
    exact List.map_id _
  have nd1 : ((sortStrings (m.map Prod.fst)).map (fun k => (k, index zero m k))).Nodup := by
    refine List.Nodup.of_map Prod.fst ?_
    rw [hkeys]
    exact (sortStrings_perm _).nodup_iff.mpr nd
  rw [List.perm_ext_iff_of_nodup nd1 (List.Nodup.of_map Prod.fst nd)]
  rintro ⟨k, v⟩
  constructor
  · intro h
    obtain ⟨k1, hk1, heq⟩ := List.mem_map.mp h
    have hk : k1 ∈ m.map Prod.fst := (sortStrings_perm _).mem_iff.mp hk1
    obtain ⟨p, hp, hpk⟩ := List.mem_map.mp hk
    have hv := index_of_mem zero nd (k := p.1) (v := p.2) hp
    rw [hpk] at hv
    rw [← heq, hv, ← hpk]
    exact hp
  · intro h
    have hk : k ∈ sortStrings (m.map Prod.fst) :=
      (sortStrings_perm _).mem_iff.mpr (List.mem_map.mpr ⟨(k, v), h, rfl⟩)
    refine List.mem_map.mpr ⟨k, hk, ?_⟩
    rw [index_of_mem zero nd h]

theorem plans_sorted_eq_unsorted_SS (e : Encoder) (hno : e.keysToCompressed = none)
    {m m2 : Entries String} (nd : (m.map Prod.fst).Nodup) (hp : m2.Perm m)
    (hs : (m2.map Prod.fst).Sorted (· ≤ ·)) :
    (sortStrings (m.map Prod.fst)).map
        (fun k => planEntry e k (e.stringCodec (index "" m (e.keyOf k)))) =
      m2.map (fun p => planEntry e p.1 (e.stringCodec p.2)) := by
  rw [sortStrings_of_sorted (hp.map Prod.fst) hs, List.map_map]
  refine List.map_congr_left (fun p hpm => ?_)
  rcases p with ⟨k, v⟩
  simp only [Function.comp_apply]
  rw [keyOf_none hno, index_of_mem "" nd (hp.mem_iff.mp hpm)]

theorem plans_sorted_eq_unsorted_SI (e : Encoder) (hno : e.keysToCompressed = none)
    {m m2 : Entries Value} (nd : (m.map Prod.fst).Nodup) (hp : m2.Perm m)
    (hs : (m2.map Prod.fst).Sorted (· ≤ ·)) :
    (sortStrings (m.map Prod.fst)).map
        (fun k => planEntry e k (e.ifaceCodec (index Value.nil m (e.keyOf k)))) =
      m2.map (fun p => planEntry e p.1 (e.ifaceCodec p.2)) := by
  rw [sortStrings_of_sorted (hp.map Prod.fst) hs, List.map_map]
  refine List.map_congr_left (fun p hpm => ?_)
  rcases p with ⟨k, v⟩
  simp only [Function.comp_apply]
  rw [keyOf_none hno, index_of_mem Value.nil nd (hp.mem_iff.mp hpm)]

theorem ascending_sorted {ν : Type} (zero : ν) {m : Entries ν} (nd : (m.map Prod.fst).Nodup) :
    (((sortStrings (m.map Prod.fst)).map (fun k => (k, index zero m k))).map
      Prod.fst).Sorted (· < ·) := by
  rw [List.map_map]
  have : (Prod.fst ∘ fun k => (k, index zero m k)) = id := rfl
  rw [this, List.map_id]
  exact sortStrings_sorted _ nd

theorem emit_congr {e1 e2 : Encoder} (hw : e1.w = e2.w) (c : Chunk) :
    e1.emit c = e2.emit c := by
  funext s
  unfold Encoder.emit
  rw [hw]

theorem run_congr {e1 e2 : Encoder} (hw : e1.w = e2.w) (p : Plan) :
    p.run e1 = p.run e2 := by
  funext s
  unfold Plan.run Plan.emitKey
  cases p.callErr with
  | some err => rfl
  | none =>
    cases p.key with
    | none => simp only [emit_congr hw]
    | some k => simp only [emit_congr hw]

theorem script_congr {e1 e2 : Encoder} (hw : e1.w = e2.w) (H : List Nat) (ps : List Plan) :
    (e1.write H).andThen (forRange (Plan.run e1) ps) =
      (e2.write H).andThen (forRange (Plan.run e2) ps) := by
  have h : Plan.run e1 = Plan.run e2 := funext (fun p => run_congr hw p)
  unfold Encoder.write
  rw [h, emit_congr hw]

theorem encodeSortedMapStringString_eq (e : Encoder) (m : Entries String) :
    e.encodeSortedMapStringString m =
      forRange (Plan.run e) ((sortStrings (m.map Prod.fst)).map
        (fun k => planEntry e k (e.stringCodec (index "" m (e.keyOf k))))) := by
  unfold Encoder.encodeSortedMapStringString
  have h2 : ∀ k : String,
      e.compress k (fun k => (e.EncodeString k).andThen (e.EncodeString (index "" m k))) =
        (planEntry e k (e.stringCodec (index "" m (e.keyOf k)))).run e :=
    fun k => compress_eq e k (fun k1 => e.stringCodec (index "" m k1))
  simp only [h2]
  rw [forRange_map]

theorem encodeSortedMapStringInterface_eq (e : Encoder) (m : Entries Value) :
    e.encodeSortedMapStringInterface m =
      forRange (Plan.run e) ((sortStrings (m.map Prod.fst)).map
        (fun k => planEntry e k (e.ifaceCodec (index Value.nil m (e.keyOf k))))) := by
  unfold Encoder.encodeSortedMapStringInterface
  have h2 : ∀ k : String,
      e.compress k (fun k => (e.EncodeString k).andThen (e.Encode (index Value.nil m k))) =
        (planEntry e k (e.ifaceCodec (index Value.nil m (e.keyOf k)))).run e :=
    fun k => compress_eq e k (fun k1 => e.ifaceCodec (index Value.nil m k1))
  simp only [h2]
  rw [forRange_map]

theorem plansMapStringString_sorted (e : Encoder) (hsort : e.sortMapKeys = true)
    (m : Entries String) :
    plansMapStringString e m = (sortStrings (m.map Prod.fst)).map
      (fun k => planEntry e k (e.stringCodec (index "" m (e.keyOf k)))) := by
  unfold plansMapStringString
  rw [hsort, if_pos rfl]

theorem plansMapStringInterface_sorted (e : Encoder) (hsort : e.sortMapKeys = true)
    (m : Entries Value) :
    plansMapStringInterface e m = (sortStrings (m.map Prod.fst)).map
      (fun k => planEntry e k (e.ifaceCodec (index Value.nil m (e.keyOf k)))) := by
  unfold plansMapStringInterface
  rw [hsort, if_pos rfl]

/-- C1, as amended: for every non-nil container with `n < 2^32` entries and every
iteration order, when `encodeMapValue`, `encodeMapStringStringValue` or
`encodeMapStringInterfaceValue` succeeds, the bytes appended to the sink are one
map-length header, which decodes to exactly `n`, followed by exactly `n` key/value
pairs, each key immediately followed by its value. -/
theorem header_count_matches_pairs (e : Encoder) (s s' : St) :
    (∀ m : List (Value × Value), m.length < 4294967296 →
      encodeMapValue e (some m) s = (none, s') →
      ∃ (hdr : List Nat) (kvs : List (Value × Value)),
        s'.out = s.out ++ hdr ++ kvs.flatMap (fun kv =>
          (e.valueCodec kv.1).bytes ++ (e.valueCodec kv.2).bytes) ∧
        kvs.length = m.length ∧
        ∀ rest, decodeMapLen (hdr ++ rest) = some (m.length, rest)) ∧
    (∀ m : Entries String, m.length < 4294967296 →
      encodeMapStringStringValue e (some m) s = (none, s') →
      ∃ (hdr : List Nat) (kvs : List (String × String)),
        s'.out = s.out ++ hdr ++ kvs.flatMap (fun kv =>
          (e.stringCodec kv.1).bytes ++ (e.stringCodec kv.2).bytes) ∧
        kvs.length = m.length ∧
        ∀ rest, decodeMapLen (hdr ++ rest) = some (m.length, rest)) ∧
    (∀ m : Entries Value, m.length < 4294967296 →
      encodeMapStringInterfaceValue e (some m) s = (none, s') →
      ∃ (hdr : List Nat) (kvs : List (String × Value)),
        s'.out = s.out ++ hdr ++ kvs.flatMap (fun kv =>
          (e.stringCodec kv.1).bytes ++ (e.ifaceCodec kv.2).bytes) ∧
        kvs.length = m.length ∧
        ∀ rest, decodeMapLen (hdr ++ rest) = some (m.length, rest)) := by
  refine ⟨fun m hn h => ?_, fun m hn h => ?_, fun m hn h => ?_⟩
  · rw [encodeMapValue_eq, script_eq_none] at h
    obtain ⟨-, -, rfl⟩ := h
    refine ⟨mapHeader m.length, m.map (fun p => (e.useKey p.1, MapIndex m p.1)), ?_, by simp,
      decodeMapLen_mapHeader _ hn⟩
    simp only [bytes_plansMapValue, List.flatMap_map]
  · rw [encodeMapStringStringValue_eq, script_eq_none] at h
    obtain ⟨-, -, rfl⟩ := h
    obtain ⟨kvs, hk, -, hb, -⟩ := pairs_MapStringString e m
    refine ⟨mapHeader m.length, kvs.map (fun kv => (e.keyOf kv.1, kv.2)), ?_, ?_,
      decodeMapLen_mapHeader _ hn⟩
    · simp only [hb, List.flatMap_map]
    · have := congrArg List.length hk
      split at this <;> simpa [length_sortStrings] using this
  · rw [encodeMapStringInterfaceValue_eq, script_eq_none] at h
    obtain ⟨-, -, rfl⟩ := h
    obtain ⟨kvs, hk, -, hb, -⟩ := pairs_MapStringInterface e m
    refine ⟨mapHeader m.length, kvs.map (fun kv => (e.keyOf kv.1, kv.2)), ?_, ?_,
      decodeMapLen_mapHeader _ hn⟩
    · simp only [hb, List.flatMap_map]
    · have := congrArg List.length hk
      split at this <;> simpa [length_sortStrings] using this

/-- Witness for C1 as amended: the two-entry map `b:2, a:1` on the default encoder
and the empty sink. -/
theorem header_count_matches_pairs_witness :
    encodeMapStringStringValue plain (some [("b", "2"), ("a", "1")]) St.empty =
      (none, ⟨[0x82, 0xa1, 98, 0xa1, 50, 0xa1, 97, 0xa1, 49], []⟩) ∧
    ∃ (hdr : List Nat) (kvs : List (String × String)),
      [0x82, 0xa1, 98, 0xa1, 50, 0xa1, 97, 0xa1, 49] = St.empty.out ++ hdr ++ kvs.flatMap (fun kv =>
        (plain.stringCodec kv.1).bytes ++ (plain.stringCodec kv.2).bytes) ∧
      kvs.length = 2 ∧ ∀ rest, decodeMapLen (hdr ++ rest) = some (2, rest) :=
  ⟨by decide,
    (header_count_matches_pairs plain St.empty
      ⟨[0x82, 0xa1, 98, 0xa1, 50, 0xa1, 97, 0xa1, 49], []⟩).2.1
      [("b", "2"), ("a", "1")] (by decide) (by decide)⟩

/-- C1, counterexample to the claim as stated: `hugeMap` is a non-nil map with
`n = 2^32` pairwise distinct keys; `encodeMapValue` succeeds on it, and the header
it writes decodes to the count 0, not `n`. -/
theorem header_count_wraps_at_2_pow_32 :
    hugeMap.length = 4294967296 ∧ (hugeMap.map Prod.fst).Nodup ∧
    (encodeMapValue plain (some hugeMap) St.empty).1 = none ∧
    ∃ rest, decodeMapLen (encodeMapValue plain (some hugeMap) St.empty).2.out =
      some (0, rest) := by
  have hw : plain.w St.empty.out (mapHeader hugeMap.length) = none := rfl
  have hrun := script_eq_none.mpr ⟨hw, hugeMap_allOk _, rfl⟩
  rw [← encodeMapValue_eq] at hrun
  refine ⟨length_hugeMap, nodup_hugeMap, ?_, ?_⟩
  · rw [hrun]
  · rw [hrun, length_hugeMap]
    have hH : mapHeader 4294967296 = [0xdf, 0, 0, 0, 0] := by decide
    have hE : St.empty.out = [] := rfl
    simp only [hH, hE, List.nil_append, List.cons_append, decodeMapLen]
    exact ⟨_, rfl⟩

/-- C2: `EncodeMapLen` picks the header form from `n` alone.  Below 16 it makes one
write of the single byte `FixedMapLow | n`; from 16 below 65536 one write of `Map16`
followed by `n` as two bytes, high byte first; from 65536 on one write of `Map32`
followed by four count bytes, high byte first.  15 takes the one-byte form, 16 and
65535 the 16-bit form, 65536 the 32-bit form. -/
theorem EncodeMapLen_size_classes (e : Encoder) (n : Nat) :
    (n < 16 → e.EncodeMapLen n = e.write [codes.FixedMapLow ||| n]) ∧
    (16 ≤ n → n < 65536 → e.EncodeMapLen n = e.write [codes.Map16, n / 256, n % 256]) ∧
    (65536 ≤ n → e.EncodeMapLen n =
      e.write [codes.Map32, n / 16777216 % 256, n / 65536 % 256, n / 256 % 256, n % 256]) ∧
    e.EncodeMapLen 15 = e.write [0x8f] ∧
    e.EncodeMapLen 16 = e.write [0xde, 0, 16] ∧
    e.EncodeMapLen 65535 = e.write [0xde, 255, 255] ∧
    e.EncodeMapLen 65536 = e.write [0xdf, 0, 1, 0, 0] := by
  refine ⟨fun h => ?_, fun h1 h2 => ?_, fun h => ?_, ?_, ?_, ?_, ?_⟩
  · rw [EncodeMapLen_eq, mapHeader, if_pos h, codes.FixedMapLow, (lor_low n h).1]
  · rw [EncodeMapLen_eq, mapHeader, if_neg (by omega), if_pos h2, codes.Map16]
  · rw [EncodeMapLen_eq, mapHeader, if_neg (by omega), if_neg (by omega), codes.Map32]
  · exact EncodeMapLen_eq e 15
  · exact EncodeMapLen_eq e 16
  · exact EncodeMapLen_eq e 65535
  · exact EncodeMapLen_eq e 65536

/-- Witness for C2 on the default encoder: the counts 3, 300 and 70000 take the
one-byte, the 16-bit and the 32-bit form, and with an empty sink they leave
`83`, `de 01 2c` and `df 00 01 11 70` in it. -/
theorem EncodeMapLen_size_classes_witness :
    (plain.EncodeMapLen (3 : Nat) = plain.write [codes.FixedMapLow ||| 3] ∧
      plain.EncodeMapLen (300 : Nat) = plain.write [codes.Map16, 300 / 256, 300 % 256] ∧
      plain.EncodeMapLen (70000 : Nat) =
        plain.write [codes.Map32, 70000 / 16777216 % 256, 70000 / 65536 % 256,
          70000 / 256 % 256, 70000 % 256]) ∧
    (plain.EncodeMapLen 3 St.empty).2.out = [0x83] ∧
    (plain.EncodeMapLen 300 St.empty).2.out = [0xde, 1, 44] ∧
    (plain.EncodeMapLen 70000 St.empty).2.out = [0xdf, 0, 1, 17, 112] :=
  ⟨⟨(EncodeMapLen_size_classes plain 3).1 (by decide),
      (EncodeMapLen_size_classes plain 300).2.1 (by decide) (by decide),
      (EncodeMapLen_size_classes plain 70000).2.2.1 (by decide)⟩,
    by decide, by decide, by decide⟩

/-- C3: on a nil container each of the three map encoders does exactly what
`EncodeNil` does: one write of the nil marker.  The outcome is a function of the
sink alone (not of the sort flag, the key transform or the struct flags): if the
sink refuses the byte the state is unchanged, otherwise the nil marker is the only
byte appended; in both cases no transform invocation is logged. -/
theorem nil_container_writes_nil (e : Encoder) (s : St) :
    encodeMapValue e none s = e.EncodeNil s ∧
    encodeMapStringStringValue e none s = e.EncodeNil s ∧
    encodeMapStringInterfaceValue e none s = e.EncodeNil s ∧
    e.EncodeNil s =
      (match e.w s.out [codes.Nil] with
        | some err => (some err, s)
        | none => (none, ⟨s.out ++ [codes.Nil], s.calls⟩)) ∧
    (e.EncodeNil s).2.calls = s.calls := by
  have h : e.EncodeNil s =
      (match e.w s.out [codes.Nil] with
        | some err => (some err, s)
        | none => (none, ⟨s.out ++ [codes.Nil], s.calls⟩)) := by
    unfold Encoder.EncodeNil Encoder.writeCode
    exact write_eq e [codes.Nil] s
  refine ⟨rfl, rfl, rfl, h, ?_⟩
  rw [h]
  cases e.w s.out [codes.Nil] <;> rfl

/-- C4: with the sort-keys flag set, for every non-nil string-keyed container with
pairwise distinct keys, with or without a key transform, there is a list `keys` of
original keys that is strictly increasing in the lexicographic order of strings and
a permutation of the container's keys, such that `encodeSortedMapStringString`
(`encodeSortedMapStringInterface`) runs the entries of these keys in this order,
each as transform call on the original key, emitted key, value, stopping at the
first failing step; and `encodeMapStringStringValue`
(`encodeMapStringInterfaceValue`) is the header followed by that run: it succeeds
if and only if the header write and every step succeed, on success the sink has
received the header and, for each key of `keys` in turn, the emitted key and its
value, and on failure the header and the complete entries of a prefix of `keys`
followed by what the failing entry appended. -/
theorem sorted_emission_order (e : Encoder) (hsort : e.sortMapKeys = true) (s : St) :
    (∀ m : Entries String, (m.map Prod.fst).Nodup →
      ∃ keys : List String,
        keys.Sorted (· < ·) ∧ keys.Perm (m.map Prod.fst) ∧
        e.encodeSortedMapStringString m s =
          forRange (Plan.run e)
            (keys.map (fun k => planEntry e k (e.stringCodec (index "" m (e.keyOf k))))) s ∧
        Aborts Plan.fails e (mapHeader m.length)
          (keys.map (fun k => planEntry e k (e.stringCodec (index "" m (e.keyOf k))))) s
          (encodeMapStringStringValue e (some m) s) ∧
        (∀ s', encodeMapStringStringValue e (some m) s = (none, s') →
          s'.out = s.out ++ mapHeader m.length ++ keys.flatMap (fun k =>
            (e.stringCodec (e.keyOf k)).bytes ++
              (e.stringCodec (index "" m (e.keyOf k))).bytes))) ∧
    (∀ m : Entries Value, (m.map Prod.fst).Nodup →
      ∃ keys : List String,
        keys.Sorted (· < ·) ∧ keys.Perm (m.map Prod.fst) ∧
        e.encodeSortedMapStringInterface m s =
          forRange (Plan.run e)
            (keys.map (fun k =>
              planEntry e k (e.ifaceCodec (index Value.nil m (e.keyOf k))))) s ∧
        Aborts Plan.fails e (mapHeader m.length)
          (keys.map (fun k =>
            planEntry e k (e.ifaceCodec (index Value.nil m (e.keyOf k))))) s
          (encodeMapStringInterfaceValue e (some m) s) ∧
        (∀ s', encodeMapStringInterfaceValue e (some m) s = (none, s') →
          s'.out = s.out ++ mapHeader m.length ++ keys.flatMap (fun k =>
            (e.stringCodec (e.keyOf k)).bytes ++
              (e.ifaceCodec (index Value.nil m (e.keyOf k))).bytes))) := by
  refine ⟨fun m hnd => ?_, fun m hnd => ?_⟩
  · refine ⟨sortStrings (m.map Prod.fst), sortStrings_sorted _ hnd, sortStrings_perm _,
      by rw [encodeSortedMapStringString_eq], ?_, fun s' h => ?_⟩
    · rw [encodeMapStringStringValue_eq, plansMapStringString_sorted e hsort]
      exact script_aborts _ _ _ _
    · rw [encodeMapStringStringValue_eq, plansMapStringString_sorted e hsort,
        script_eq_none] at h
      obtain ⟨-, -, rfl⟩ := h
      simp only [bytes_planEntry e (fun k : String => k)
        (fun k : String => e.stringCodec (index "" m (e.keyOf k)))]
  · refine ⟨sortStrings (m.map Prod.fst), sortStrings_sorted _ hnd, sortStrings_perm _,
      by rw [encodeSortedMapStringInterface_eq], ?_, fun s' h => ?_⟩
    · rw [encodeMapStringInterfaceValue_eq, plansMapStringInterface_sorted e hsort]
      exact script_aborts _ _ _ _
    · rw [encodeMapStringInterfaceValue_eq, plansMapStringInterface_sorted e hsort,
        script_eq_none] at h
      obtain ⟨-, -, rfl⟩ := h
      simp only [bytes_planEntry e (fun k : String => k)
        (fun k : String => e.ifaceCodec (index Value.nil m (e.keyOf k)))]

/-- Witness for C4: the map `b:2, a:1`, enumerated with `b` first, with the
sort-keys flag set.  Without a transform the sink receives the 2-entry header, then
key `a` and its value, then key `b` and its value, from both encoders and from both
sorted functions run on their own.  With the transform that puts `k` in front, the
transform is invoked on `a` and then on `b` and the emitted keys are `ka`, `kb`.
With the transform that knows `a` only, entry `a` is written and the encode stops
at the call on `b`. -/
theorem sorted_emission_order_witness :
    encodeMapStringStringValue sorting (some [("b", "2"), ("a", "1")]) St.empty =
      (none, ⟨[0x82, 0xa1, 97, 0xa1, 49, 0xa1, 98, 0xa1, 50], []⟩) ∧
    encodeMapStringInterfaceValue sorting
        (some [("b", Value.int 2), ("a", Value.int 1)]) St.empty =
      (none, ⟨[0x82, 0xa1, 97, 1, 0xa1, 98, 2], []⟩) ∧
    sorting.encodeSortedMapStringString [("b", "2"), ("a", "1")] St.empty =
      (none, ⟨[0xa1, 97, 0xa1, 49, 0xa1, 98, 0xa1, 50], []⟩) ∧
    sorting.encodeSortedMapStringInterface
        [("b", Value.int 2), ("a", Value.int 1)] St.empty =
      (none, ⟨[0xa1, 97, 1, 0xa1, 98, 2], []⟩) ∧
    (tagging true).encodeSortedMapStringString [("b", "2"), ("a", "1")] St.empty =
      (none, ⟨[0xa2, 107, 97, 0xa0, 0xa2, 107, 98, 0xa0], ["a", "b"]⟩) ∧
    (tagging true).encodeSortedMapStringInterface
        [("b", Value.int 2), ("a", Value.int 1)] St.empty =
      (none, ⟨[0xa2, 107, 97, 0xc0, 0xa2, 107, 98, 0xc0], ["a", "b"]⟩) ∧
    encodeMapStringInterfaceValue { inner with sortMapKeys := true }
        (some [("b", Value.int 2), ("a", Value.int 1)]) St.empty =
      (some ⟨"unknown key"⟩, ⟨[0x82, 0xa1, 97, 1], ["a", "b"]⟩) ∧
    (∃ keys : List String,
      keys.Sorted (· < ·) ∧ keys.Perm ([("b", "2"), ("a", "1")].map Prod.fst) ∧
      sorting.encodeSortedMapStringString [("b", "2"), ("a", "1")] St.empty =
        forRange (Plan.run sorting)
          (keys.map (fun k => planEntry sorting k
            (sorting.stringCodec (index "" [("b", "2"), ("a", "1")] (sorting.keyOf k)))))
          St.empty ∧
      Aborts Plan.fails sorting (mapHeader [("b", "2"), ("a", "1")].length)
        (keys.map (fun k => planEntry sorting k
          (sorting.stringCodec (index "" [("b", "2"), ("a", "1")] (sorting.keyOf k)))))
        St.empty (encodeMapStringStringValue sorting (some [("b", "2"), ("a", "1")]) St.empty) ∧
      (∀ s', encodeMapStringStringValue sorting (some [("b", "2"), ("a", "1")]) St.empty =
          (none, s') →
        s'.out = St.empty.out ++ mapHeader [("b", "2"), ("a", "1")].length ++
          keys.flatMap (fun k =>
            (sorting.stringCodec (sorting.keyOf k)).bytes ++
              (sorting.stringCodec
                (index "" [("b", "2"), ("a", "1")] (sorting.keyOf k))).bytes))) ∧
    (∃ keys : List String,
      keys.Sorted (· < ·) ∧
      keys.Perm ([("b", Value.int 2), ("a", Value.int 1)].map Prod.fst) ∧
      (tagging true).encodeSortedMapStringInterface
          [("b", Value.int 2), ("a", Value.int 1)] St.empty =
        forRange (Plan.run (tagging true))
          (keys.map (fun k => planEntry (tagging true) k
            ((tagging true).ifaceCodec (index Value.nil
              [("b", Value.int 2), ("a", Value.int 1)] ((tagging true).keyOf k)))))
          St.empty ∧
      Aborts Plan.fails (tagging true)
        (mapHeader [("b", Value.int 2), ("a", Value.int 1)].length)
        (keys.map (fun k => planEntry (tagging true) k
          ((tagging true).ifaceCodec (index Value.nil
            [("b", Value.int 2), ("a", Value.int 1)] ((tagging true).keyOf k)))))
        St.empty
        (encodeMapStringInterfaceValue (tagging true)
          (some [("b", Value.int 2), ("a", Value.int 1)]) St.empty) ∧
      (∀ s', encodeMapStringInterfaceValue (tagging true)
          (some [("b", Value.int 2), ("a", Value.int 1)]) St.empty = (none, s') →
        s'.out = St.empty.out ++ mapHeader [("b", Value.int 2), ("a", Value.int 1)].length ++
          keys.flatMap (fun k =>
            ((tagging true).stringCodec ((tagging true).keyOf k)).bytes ++
              ((tagging true).ifaceCodec (index Value.nil
                [("b", Value.int 2), ("a", Value.int 1)] ((tagging true).keyOf k))).bytes))) :=
  ⟨by decide, by decide, by decide, by decide, by decide, by decide, by decide,
    (sorted_emission_order sorting rfl St.empty).1 [("b", "2"), ("a", "1")] (by decide),
    (sorted_emission_order (tagging true) rfl St.empty).2
      [("b", Value.int 2), ("a", Value.int 1)] (by decide)⟩

/-- C5, the code at the failing input: with the sort-keys flag set and a transform
that puts `k` in front of every key, the one-entry map `a:1` is encoded as key `ka`
followed by the empty string (`a0`), because the value is looked up under the
transformed key; the map `a:1, ka:2` gets the value of the entry `ka` under the key
of entry `a`.  Without the sort flag the same encoder emits the entry's own value
(`a1 31`). -/
theorem sorted_path_looks_up_transformed_key :
    encodeMapStringStringValue (tagging true) (some [("a", "1")]) St.empty =
      (none, ⟨[0x81, 0xa2, 107, 97, 0xa0], ["a"]⟩) ∧
    encodeMapStringStringValue (tagging false) (some [("a", "1")]) St.empty =
      (none, ⟨[0x81, 0xa2, 107, 97, 0xa1, 49], ["a"]⟩) ∧
    encodeMapStringInterfaceValue (tagging true) (some [("a", Value.str "1")]) St.empty =
      (none, ⟨[0x81, 0xa2, 107, 97, 0xc0], ["a"]⟩) ∧
    encodeMapStringInterfaceValue (tagging false) (some [("a", Value.str "1")]) St.empty =
      (none, ⟨[0x81, 0xa2, 107, 97, 0xa1, 49], ["a"]⟩) ∧
    encodeMapStringStringValue (tagging true) (some [("a", "1"), ("ka", "2")]) St.empty =
      (none, ⟨[0x82, 0xa2, 107, 97, 0xa1, 50, 0xa3, 107, 107, 97, 0xa0], ["a", "ka"]⟩) := by
  decide

/-- C6, as amended: every encoder variant runs its entries in emission order and
stops at the first failing step, and for every entry whose key has the Go type
`string` (every key of the text-keyed encoders and every field name of
`encodeStructValue` in map shape, and in `encodeMapValue` the keys of dynamic type
`string`) the function itself invokes the transform exactly once when one is
configured, on the original key (`e.keyCalls k = [k]`), before anything of the
entry is written; if the call fails the encode returns its error, otherwise the key
emitted is the encoding of the result (`e.keyOf k`).  With no transform configured
there is no call and the original key is emitted.  In `encodeMapValue` a key of any
other type, also of a defined type whose underlying type is `string`, is emitted
unchanged without a call.  Transform calls made inside the encoding of a key or a
value (a nested map is encoded by the same encoder) come after the call of the
entry and are those of that encoding. -/
theorem key_transform_once_per_entry (e : Encoder) (s : St) :
    (∀ k, (e.keysToCompressed = none →
        e.keyOf k = k ∧ e.keyCalls k = [] ∧ e.keyErr k = none) ∧
      (∀ f, e.keysToCompressed = some f → e.keyCalls k = [k] ∧
        (∀ r, f k = .ok r → e.keyOf k = r ∧ e.keyErr k = none) ∧
        (∀ err, f k = .error err → e.keyErr k = some err))) ∧
    (∀ m : List (Value × Value),
      Aborts Plan.fails e (mapHeader m.length)
        (m.map (fun p =>
          match p.1 with
          | Value.str k =>
            ⟨e.keyCalls k, e.keyErr k, some (e.valueCodec (Value.str (e.keyOf k))),
              e.valueCodec (MapIndex m p.1)⟩
          | key => ⟨[], none, some (e.valueCodec key), e.valueCodec (MapIndex m p.1)⟩)) s
        (encodeMapValue e (some m) s)) ∧
    (∀ m : Entries String,
      Aborts Plan.fails e (mapHeader m.length)
        ((if e.sortMapKeys then
            (sortStrings (m.map Prod.fst)).map (fun k => (k, index "" m (e.keyOf k)))
          else m).map
          (fun kv => ⟨e.keyCalls kv.1, e.keyErr kv.1, some (e.stringCodec (e.keyOf kv.1)),
            e.stringCodec kv.2⟩)) s
        (encodeMapStringStringValue e (some m) s)) ∧
    (∀ m : Entries Value,
      Aborts Plan.fails e (mapHeader m.length)
        ((if e.sortMapKeys then
            (sortStrings (m.map Prod.fst)).map (fun k => (k, index Value.nil m (e.keyOf k)))
          else m).map
          (fun kv => ⟨e.keyCalls kv.1, e.keyErr kv.1, some (e.stringCodec (e.keyOf kv.1)),
            e.ifaceCodec kv.2⟩)) s
        (encodeMapStringInterfaceValue e (some m) s)) ∧
    (∀ strct : Struct, e.arrayShape strct = false →
      Aborts Plan.fails e (mapHeader ((e.fieldsOf strct).OmitEmpty strct).length)
        (((e.fieldsOf strct).OmitEmpty strct).map
          (fun f => ⟨e.keyCalls f.name, e.keyErr f.name,
            some (e.stringCodec (e.keyOf f.name)),
            e.valueCodec (strct.FieldByIndex f.index)⟩)) s
        (encodeStructValue e strct s)) := by
  refine ⟨fun k => ⟨fun h => ?_, fun f h => ⟨?_, fun r hr => ?_, fun err hr => ?_⟩⟩,
    fun m => ?_, fun m => ?_, fun m => ?_, fun strct hshape => ?_⟩
  · simp [Encoder.keyOf, Encoder.keyCalls, Encoder.keyErr, h]
  · simp [Encoder.keyCalls, h]
  · simp [Encoder.keyOf, Encoder.keyErr, h, hr]
  · simp [Encoder.keyErr, h, hr]
  · have hpl : plansMapValue e m = m.map (fun p =>
        match p.1 with
        | Value.str k =>
          ⟨e.keyCalls k, e.keyErr k, some (e.valueCodec (Value.str (e.keyOf k))),
            e.valueCodec (MapIndex m p.1)⟩
        | key => ⟨[], none, some (e.valueCodec key), e.valueCodec (MapIndex m p.1)⟩) := by
      unfold plansMapValue
      rw [List.map_map]
      refine List.map_congr_left (fun p _ => ?_)
      rcases p with ⟨key, v⟩
      cases key <;> rfl
    rw [encodeMapValue_eq, hpl]
    exact script_aborts _ _ _ _
  · have hpl : plansMapStringString e m =
        (if e.sortMapKeys then
            (sortStrings (m.map Prod.fst)).map (fun k => (k, index "" m (e.keyOf k)))
          else m).map
          (fun kv => ⟨e.keyCalls kv.1, e.keyErr kv.1, some (e.stringCodec (e.keyOf kv.1)),
            e.stringCodec kv.2⟩) := by
      unfold plansMapStringString
      cases e.sortMapKeys
      · rfl
      · simp only [if_true, List.map_map]
        rfl
    rw [encodeMapStringStringValue_eq, hpl]
    exact script_aborts _ _ _ _
  · have hpl : plansMapStringInterface e m =
        (if e.sortMapKeys then
            (sortStrings (m.map Prod.fst)).map (fun k => (k, index Value.nil m (e.keyOf k)))
          else m).map
          (fun kv => ⟨e.keyCalls kv.1, e.keyErr kv.1, some (e.stringCodec (e.keyOf kv.1)),
            e.ifaceCodec kv.2⟩) := by
      unfold plansMapStringInterface
      cases e.sortMapKeys
      · rfl
      · simp only [if_true, List.map_map]
        rfl
    rw [encodeMapStringInterfaceValue_eq, hpl]
    exact script_aborts _ _ _ _
  · rw [encodeStructValue_map e strct hshape]
    exact script_aborts _ _ _ _

/-- Witness for C6 as amended, with the transform that puts `k` in front of every
key.  Every variant emits `kb`, `ka` (or `kName`, `kCount`) for the keys `b`, `a`
(or the field names), with one call per entry on the original key: `encodeMapValue`,
both text-keyed encoders unsorted and sorted, and `encodeStructValue` in map shape;
a nested map adds its own calls after the call of its entry.  With no transform the
original keys are emitted and there is no call.  With a transform that knows `a`
only, the call on `b` fails and the encode stops there. -/
theorem key_transform_once_per_entry_witness :
    encodeMapValue (tagging false)
        (some [(Value.str "b", Value.int 2), (Value.str "a", Value.int 1)]) St.empty =
      (none, ⟨[0x82, 0xa2, 107, 98, 2, 0xa2, 107, 97, 1], ["b", "a"]⟩) ∧
    encodeMapStringStringValue (tagging false) (some [("b", "2"), ("a", "1")]) St.empty =
      (none, ⟨[0x82, 0xa2, 107, 98, 0xa1, 50, 0xa2, 107, 97, 0xa1, 49], ["b", "a"]⟩) ∧
    encodeMapStringStringValue (tagging true) (some [("b", "2"), ("a", "1")]) St.empty =
      (none, ⟨[0x82, 0xa2, 107, 97, 0xa0, 0xa2, 107, 98, 0xa0], ["a", "b"]⟩) ∧
    encodeMapStringInterfaceValue (tagging false)
        (some [("b", Value.int 2), ("a", Value.int 1)]) St.empty =
      (none, ⟨[0x82, 0xa2, 107, 98, 2, 0xa2, 107, 97, 1], ["b", "a"]⟩) ∧
    encodeMapStringInterfaceValue (tagging true)
        (some [("b", Value.int 2), ("a", Value.int 1)]) St.empty =
      (none, ⟨[0x82, 0xa2, 107, 97, 0xc0, 0xa2, 107, 98, 0xc0], ["a", "b"]⟩) ∧
    encodeStructValue (tagging false) sampleFull St.empty =
      (none, ⟨[0x82, 0xa5, 107, 78, 97, 109, 101, 0xa2, 104, 105,
        0xa6, 107, 67, 111, 117, 110, 116, 7], ["Name", "Count"]⟩) ∧
    encodeMapStringInterfaceValue
        { deep with keysToCompressed := some (fun k => .ok ("k" ++ k)) }
        (some [("m", Value.mapStringString (some [("x", "1")]))]) St.empty =
      (none, ⟨[0x81, 0xa2, 107, 109, 0x81, 0xa2, 107, 120, 0xa1, 49], ["m", "x"]⟩) ∧
    encodeMapStringStringValue plain (some [("b", "2"), ("a", "1")]) St.empty =
      (none, ⟨[0x82, 0xa1, 98, 0xa1, 50, 0xa1, 97, 0xa1, 49], []⟩) ∧
    encodeStructValue plain sampleFull St.empty =
      (none, ⟨[0x82, 0xa4, 78, 97, 109, 101, 0xa2, 104, 105, 0xa5, 67, 111, 117, 110, 116, 7],
        []⟩) ∧
    encodeMapValue inner (some [(Value.str "b", Value.int 2)]) St.empty =
      (some ⟨"unknown key"⟩, ⟨[0x81], ["b"]⟩) ∧
    (tagging false).keyCalls "b" = ["b"] ∧
    Aborts Plan.fails (tagging false)
      (mapHeader (((tagging false).fieldsOf sampleFull).OmitEmpty sampleFull).length)
      ((((tagging false).fieldsOf sampleFull).OmitEmpty sampleFull).map
        (fun f => ⟨(tagging false).keyCalls f.name, (tagging false).keyErr f.name,
          some ((tagging false).stringCodec ((tagging false).keyOf f.name)),
          (tagging false).valueCodec (sampleFull.FieldByIndex f.index)⟩)) St.empty
      (encodeStructValue (tagging false) sampleFull St.empty) ∧
    (plain.keyOf "b" = "b" ∧ plain.keyCalls "b" = [] ∧ plain.keyErr "b" = none) :=
  ⟨by decide, by decide, by decide, by decide, by decide, by decide, by decide, by decide,
    by decide, by decide,
    (((key_transform_once_per_entry (tagging false) St.empty).1 "b").2 _ rfl).1,
    (key_transform_once_per_entry (tagging false) St.empty).2.2.2.2 sampleFull (by decide),
    ((key_transform_once_per_entry plain St.empty).1 "b").1 rfl⟩

/-- C6, counterexample to the claim as stated: the key `b` of the defined type `Key`
(underlying type `string`) is a textual key of a map encoded by `encodeMapValue`.
With the transform that knows the key `a` only, the map is encoded with the key `b`
as it stands (`a1 62`) and the transform is not invoked, neither once nor on `b`;
the same key of type `string` makes the encode fail on the transform call. -/
theorem defined_type_key_bypasses_transform :
    encodeMapValue inner (some [(Value.namedStr "Key" "b", Value.int 2)]) St.empty =
      (none, ⟨[0x81, 0xa1, 98, 2], []⟩) ∧
    encodeMapValue inner (some [(Value.str "b", Value.int 2)]) St.empty =
      (some ⟨"unknown key"⟩, ⟨[0x81], ["b"]⟩) ∧
    knownKeys "b" = .error ⟨"unknown key"⟩ :=
  ⟨by decide, by decide, rfl⟩

/-- C8, as amended: in array shape (the session flag or the type's array flag set),
`encodeStructValue` is `encodeStructValueAsArray` on the full declared field list.
It writes the array-length header for the full declared field count and then
encodes every declared field's value in declared order through the value encoder of
the same encoder, stopping at the first failure: no key is written, no field is
omitted, and the function itself never invokes the key transform.  On success the
sink has received the header followed by the values and nothing else, and the
transform has been invoked exactly as the field value encodings invoke it.  The
outcome is therefore the same under another key-transform setting whenever every
field value is encoded the same under both settings. -/
theorem struct_array_shape (e : Encoder) (strct : Struct) (s : St)
    (hshape : e.structAsArray = true ∨ (e.fieldsOf strct).AsArray = true) :
    encodeStructValue e strct = encodeStructValueAsArray e strct (e.fieldsOf strct).list ∧
    Aborts Plan.fails e (arrayHeader (e.fieldsOf strct).list.length)
      ((e.fieldsOf strct).list.map
        (fun f => ⟨[], none, none, e.valueCodec (strct.FieldByIndex f.index)⟩)) s
      (encodeStructValue e strct s) ∧
    (∀ s', encodeStructValue e strct s = (none, s') →
      s' = ⟨s.out ++ arrayHeader (e.fieldsOf strct).list.length ++
          (e.fieldsOf strct).list.flatMap (fun f =>
            (e.valueCodec (strct.FieldByIndex f.index)).bytes),
        s.calls ++ (e.fieldsOf strct).list.flatMap (fun f =>
            (e.valueCodec (strct.FieldByIndex f.index)).calls)⟩) ∧
    (∀ tr, (∀ f ∈ (e.fieldsOf strct).list,
        ({ e with keysToCompressed := tr } : Encoder).valueCodec
          (strct.FieldByIndex f.index) = e.valueCodec (strct.FieldByIndex f.index)) →
      encodeStructValue { e with keysToCompressed := tr } strct s =
        encodeStructValue e strct s) := by
  have hs : e.arrayShape strct = true := by
    unfold Encoder.arrayShape
    rcases hshape with h | h <;> simp [h]
  refine ⟨?_, ?_, fun s' h => ?_, fun tr htr => ?_⟩
  · rw [encodeStructValue_array e strct hs, encodeStructValueAsArray_eq]
  · rw [encodeStructValue_array e strct hs]
    exact script_aborts _ _ _ _
  · rw [encodeStructValue_array e strct hs, script_eq_none] at h
    obtain ⟨-, -, rfl⟩ := h
    unfold plansArray
    rw [List.flatMap_map, List.flatMap_map]
    simp [Plan.bytes, Plan.keyBytes, Plan.calls, Plan.keyNested]
  · have hs2 : ({ e with keysToCompressed := tr } : Encoder).arrayShape strct = true := hs
    rw [encodeStructValue_array e strct hs, encodeStructValue_array _ strct hs2]
    have hpl : plansArray { e with keysToCompressed := tr } strct
        (({ e with keysToCompressed := tr } : Encoder).fieldsOf strct).list =
        plansArray e strct (e.fieldsOf strct).list := by
      unfold plansArray
      refine List.map_congr_left (fun f hf => ?_)
      rw [htr f hf]
    rw [hpl]
    exact congrFun (script_congr rfl _ _) s

/-- Witness for C8 as amended: `Name = "hi", Count = 0` in array shape: a 2-entry
array header, the value `hi`, the value `0`, with the force-array flag set, with a
type that declares array shape, and from `encodeStructValueAsArray` itself; the same
with a transform that fails on every key, the two fields being scalars.  A field
holding the map `x:1` is written as that map after the 1-entry array header. -/
theorem struct_array_shape_witness :
    encodeStructValue (arraying none) sample St.empty =
      (none, ⟨[0x92, 0xa2, 104, 105, 0], []⟩) ∧
    encodeStructValue (arraying (some refuseKeys)) sample St.empty =
      (none, ⟨[0x92, 0xa2, 104, 105, 0], []⟩) ∧
    encodeStructValue plain arrayTyped St.empty =
      (none, ⟨[0x92, 0xa2, 104, 105, 0], []⟩) ∧
    encodeStructValueAsArray plain sample sample.structs.list St.empty =
      (none, ⟨[0x92, 0xa2, 104, 105, 0], []⟩) ∧
    encodeStructValue (deepArraying none) holder St.empty =
      (none, ⟨[0x91, 0x81, 0xa1, 120, 0xa1, 49], []⟩) ∧
    (∀ s', encodeStructValue (arraying none) sample St.empty = (none, s') →
      s' = ⟨St.empty.out ++ arrayHeader ((arraying none).fieldsOf sample).list.length ++
          ((arraying none).fieldsOf sample).list.flatMap (fun f =>
            ((arraying none).valueCodec (sample.FieldByIndex f.index)).bytes),
        St.empty.calls ++ ((arraying none).fieldsOf sample).list.flatMap (fun f =>
            ((arraying none).valueCodec (sample.FieldByIndex f.index)).calls)⟩) ∧
    encodeStructValue { arraying none with keysToCompressed := some refuseKeys } sample
        St.empty =
      encodeStructValue (arraying none) sample St.empty :=
  ⟨by decide, by decide, by decide, by decide, by decide,
    (struct_array_shape (arraying none) sample St.empty (Or.inl rfl)).2.2.1,
    (struct_array_shape (arraying none) sample St.empty (Or.inl rfl)).2.2.2
      (some refuseKeys) (fun _ _ => rfl)⟩

/-- C8, counterexample to the claim as stated: a struct whose single field holds the
map `x:1`, in array shape.  The field value is encoded by the same encoder, which
invokes the key transform on the key `x` of the nested map: with no transform the
encode writes `91 81 a1 78 a1 31`, with a transform that fails on every key it
writes `91 81`, invokes the transform on `x` and returns its error. -/
theorem array_shape_field_invokes_transform :
    encodeStructValue (deepArraying none) holder St.empty =
      (none, ⟨[0x91, 0x81, 0xa1, 120, 0xa1, 49], []⟩) ∧
    encodeStructValue (deepArraying (some refuseKeys)) holder St.empty =
      (some ⟨"no such key"⟩, ⟨[0x91, 0x81], ["x"]⟩) := by
  decide

/-- C9, as amended: every encoder of the file aborts at the first failing step and
returns exactly that step's error.  If the header write fails, the state is
unchanged.  If the transform or a key or value encode fails at an entry, the sink
has received exactly the header, the complete pairs of the preceding entries, the
key of the failing entry if the failure is in its value, and whatever the failing
encode step itself appended before it returned its error; nothing is written
afterwards and nothing is retracted.  The encode succeeds if and only if the header
write, every transform call and every key and value encode succeed. -/
theorem aborts_at_first_failure (e : Encoder) (s : St) :
    (∀ m : List (Value × Value),
      Aborts Plan.fails e (mapHeader m.length) (plansMapValue e m) s
        (encodeMapValue e (some m) s)) ∧
    (∀ m : Entries String,
      Aborts Plan.fails e (mapHeader m.length) (plansMapStringString e m) s
        (encodeMapStringStringValue e (some m) s)) ∧
    (∀ m : Entries Value,
      Aborts Plan.fails e (mapHeader m.length) (plansMapStringInterface e m) s
        (encodeMapStringInterfaceValue e (some m) s)) ∧
    (∀ strct : Struct, e.arrayShape strct = false →
      Aborts Plan.fails e (mapHeader ((e.fieldsOf strct).OmitEmpty strct).length)
        (plansStruct e strct) s (encodeStructValue e strct s)) ∧
    (∀ strct : Struct, e.arrayShape strct = true →
      Aborts Plan.fails e (arrayHeader (e.fieldsOf strct).list.length)
        (plansArray e strct (e.fieldsOf strct).list) s (encodeStructValue e strct s)) ∧
    (∀ (strct : Struct) (fs : List field),
      Aborts Plan.fails e (arrayHeader fs.length) (plansArray e strct fs) s
        (encodeStructValueAsArray e strct fs s)) := by
  refine ⟨fun m => ?_, fun m => ?_, fun m => ?_, fun strct h => ?_, fun strct h => ?_,
    fun strct fs => ?_⟩
  · rw [encodeMapValue_eq]; exact script_aborts _ _ _ _
  · rw [encodeMapStringStringValue_eq]; exact script_aborts _ _ _ _
  · rw [encodeMapStringInterfaceValue_eq]; exact script_aborts _ _ _ _
  · rw [encodeStructValue_map e strct h]; exact script_aborts _ _ _ _
  · rw [encodeStructValue_array e strct h]; exact script_aborts _ _ _ _
  · rw [encodeStructValueAsArray_eq]; exact script_aborts _ _ _ _

/-- Witness for C9 as amended: the struct `Name = "hi", Count = 0` in map shape on
the encoder whose transform knows the key `a` only: the header is written, the
transform is invoked on `Name` and fails, and the encode returns its error with
only the header in the sink. -/
theorem aborts_at_first_failure_witness :
    encodeStructValue inner sample St.empty =
      (some ⟨"unknown key"⟩, ⟨[0x81], ["Name"]⟩) ∧
    Aborts Plan.fails inner (mapHeader ((inner.fieldsOf sample).OmitEmpty sample).length)
      (plansStruct inner sample) St.empty (encodeStructValue inner sample St.empty) :=
  ⟨by decide, (aborts_at_first_failure inner St.empty).2.2.2.1 sample (by decide)⟩

/-- C9, counterexample to the claim as stated: the outer map has the single entry
`a`, whose value is a nested map with the entry `x:1`; the transform fails on `x`.
The value encode of entry `a` writes the nested header `81`, invokes the transform
on `x` and then fails, so the sink holds `81 a1 61 81`: neither the header alone nor the header followed by the
key of the failing entry. -/
theorem failing_value_leaves_its_bytes :
    encodeMapStringInterfaceValue nesting (some nestedMap) St.empty =
      (some ⟨"unknown key"⟩, ⟨[0x81, 0xa1, 97, 0x81], ["a", "x"]⟩) ∧
    ¬ Aborts Plan.failsClean nesting (mapHeader nestedMap.length)
      (plansMapStringInterface nesting nestedMap) St.empty
      (encodeMapStringInterfaceValue nesting (some nestedMap) St.empty) := by
  have hrun : encodeMapStringInterfaceValue nesting (some nestedMap) St.empty =
      (some ⟨"unknown key"⟩, ⟨[0x81, 0xa1, 97, 0x81], ["a", "x"]⟩) := by decide
  refine ⟨hrun, ?_⟩
  rw [hrun]
  rintro ⟨-, -, -, h⟩
  obtain ⟨pre, p, post, written, called, hps, -, hf, hs⟩ :=
    h ⟨"unknown key"⟩ rfl (by decide)
  have hpre : pre = [] := by
    cases pre with
    | nil => rfl
    | cons q pre =>
      have := congrArg List.length hps
      simp [plansMapStringInterface, nestedMap, nesting, inner, plain] at this
  subst hpre
  have hp : p = planEntry nesting "a" (nesting.ifaceCodec
      (Value.mapStringString (some [("x", "1")]))) := by
    have := hps
    simp only [List.nil_append] at this
    exact (List.cons.inj this).1.symm
  subst hp
  have hout := congrArg St.out hs
  simp only at hout
  rcases hf with ⟨-, hw⟩ | ⟨-, -, hw⟩ | ⟨-, -, -, hw⟩ <;> subst hw <;>
    exact absurd hout (by decide)

/-- C10: on an empty, non-nil container each of the three map encoders (whatever
the sort flag and the key transform) makes one write of the single byte `0x80`, the
fixed-map header for count 0, and does nothing else; on a nil container it makes one
write of the nil marker `0xc0`.  Whenever the sink accepts both, the two outputs
differ. -/
theorem empty_differs_from_nil (e : Encoder) (s : St) :
    encodeMapValue e (some []) s = e.write [0x80] s ∧
    encodeMapStringStringValue e (some []) s = e.write [0x80] s ∧
    encodeMapStringInterfaceValue e (some []) s = e.write [0x80] s ∧
    encodeMapValue e none s = e.write [0xc0] s ∧
    encodeMapStringStringValue e none s = e.write [0xc0] s ∧
    encodeMapStringInterfaceValue e none s = e.write [0xc0] s ∧
    (e.w s.out [0x80] = none → e.w s.out [0xc0] = none →
      e.write [0x80] s = (none, ⟨s.out ++ [0x80], s.calls⟩) ∧
      e.write [0xc0] s = (none, ⟨s.out ++ [0xc0], s.calls⟩) ∧
      (e.write [0x80] s).2.out ≠ (e.write [0xc0] s).2.out) := by
  have hloop : e.write [0x80] s =
      (e.write (mapHeader 0)).andThen (forRange (Plan.run e) []) s := by
    have h0 : mapHeader 0 = [0x80] := by decide
    rw [h0]
    simp only [forRange, Enc.andThen, Enc.ok]
    rcases e.write [0x80] s with ⟨r, s2⟩
    cases r <;> rfl
  refine ⟨?_, ?_, ?_, rfl, rfl, rfl, ?_⟩
  · rw [encodeMapValue_eq, hloop]; rfl
  · rw [encodeMapStringStringValue_eq, hloop]
    unfold plansMapStringString
    cases e.sortMapKeys <;> rfl
  · rw [encodeMapStringInterfaceValue_eq, hloop]
    unfold plansMapStringInterface
    cases e.sortMapKeys <;> rfl
  · intro h1 h2
    simp [write_eq, h1, h2]

/-- Witness for C10 on the default encoder and the empty sink. -/
theorem empty_differs_from_nil_witness :
    (encodeMapStringStringValue plain (some []) St.empty).2.out = [0x80] ∧
    (encodeMapStringStringValue plain none St.empty).2.out = [0xc0] ∧
    (plain.write [0x80] St.empty).2.out ≠ (plain.write [0xc0] St.empty).2.out :=
  ⟨by decide, by decide,
    ((empty_differs_from_nil plain St.empty).2.2.2.2.2.2 (by decide) (by decide)).2.2⟩

/-- C11, as amended: `encodeStructValue` uses array shape if and only if the session's
force-array flag is set or the field set of the type declares array shape; either
flag suffices, so when the two disagree the shape is array shape, whichever of the
two is set.  Array shape means that the function does what `encodeStructValueAsArray`
does on the full declared list; and whenever anything reaches the sink, the first
byte is the lead byte of an array header exactly when one of the flags is set, and
the lead byte of a map header exactly when neither is. -/
theorem struct_shape_choice (e : Encoder) (strct : Struct) (s : St) :
    ((e.structAsArray = true ∨ (e.fieldsOf strct).AsArray = true) →
      encodeStructValue e strct s =
        encodeStructValueAsArray e strct (e.fieldsOf strct).list s) ∧
    (∀ b rest, (encodeStructValue e strct s).2.out = s.out ++ b :: rest →
      (isArrayLead b = true ↔
        (e.structAsArray = true ∨ (e.fieldsOf strct).AsArray = true)) ∧
      (isMapLead b = true ↔
        (e.structAsArray = false ∧ (e.fieldsOf strct).AsArray = false))) ∧
    (e.structAsArray ≠ (e.fieldsOf strct).AsArray →
      encodeStructValue e strct s =
        encodeStructValueAsArray e strct (e.fieldsOf strct).list s) := by
  have harr : (e.structAsArray = true ∨ (e.fieldsOf strct).AsArray = true) →
      encodeStructValue e strct s =
        encodeStructValueAsArray e strct (e.fieldsOf strct).list s := by
    intro h
    have hs : e.arrayShape strct = true := by
      unfold Encoder.arrayShape
      rcases h with h | h <;> simp [h]
    rw [encodeStructValue_array e strct hs, encodeStructValueAsArray_eq]
  refine ⟨harr, fun b rest hout => ?_, fun hne => harr ?_⟩
  · cases hs : e.arrayShape strct with
    | true =>
      have hflags : e.structAsArray = true ∨ (e.fieldsOf strct).AsArray = true := by
        unfold Encoder.arrayShape at hs
        simpa using hs
      rw [encodeStructValue_array e strct hs] at hout
      obtain ⟨⟨c, t, hH, hc1, hc2⟩, -⟩ := lead_of_headers (e.fieldsOf strct).list.length
      have hb := first_byte_of_script hout hH
      subst hb
      refine ⟨⟨fun _ => hflags, fun _ => hc1⟩, ⟨fun h => ?_, fun h => ?_⟩⟩
      · rw [hc2] at h; cases h
      · rcases hflags with h1 | h1
        · rw [h.1] at h1; cases h1
        · rw [h.2] at h1; cases h1
    | false =>
      have hflags : e.structAsArray = false ∧ (e.fieldsOf strct).AsArray = false := by
        unfold Encoder.arrayShape at hs
        simpa using hs
      rw [encodeStructValue_map e strct hs] at hout
      obtain ⟨-, ⟨c, t, hH, hc1, hc2⟩⟩ :=
        lead_of_headers ((e.fieldsOf strct).OmitEmpty strct).length
      have hb := first_byte_of_script hout hH
      subst hb
      refine ⟨⟨fun h => ?_, fun h => ?_⟩, ⟨fun _ => hflags, fun _ => hc1⟩⟩
      · rw [hc2] at h; cases h
      · rcases h with h1 | h1
        · rw [hflags.1] at h1; cases h1
        · rw [hflags.2] at h1; cases h1
  · cases h1 : e.structAsArray with
    | true => exact Or.inl rfl
    | false =>
      cases h2 : (e.fieldsOf strct).AsArray with
      | true => exact Or.inr rfl
      | false => exact absurd (h1.trans h2.symm) hne

/-- Witness for C11 as amended: on a type that declares array shape, with the
session flag unset, and on a type that does not, with the session flag set, the
encoding is the one of `encodeStructValueAsArray`. -/
theorem struct_shape_choice_witness :
    encodeStructValue plain arrayTyped St.empty =
      encodeStructValueAsArray plain arrayTyped (plain.fieldsOf arrayTyped).list St.empty ∧
    encodeStructValue (arraying none) sample St.empty =
      encodeStructValueAsArray (arraying none) sample
        ((arraying none).fieldsOf sample).list St.empty ∧
    (isArrayLead 0x92 = true ↔
      (plain.structAsArray = true ∨ (plain.fieldsOf arrayTyped).AsArray = true)) :=
  ⟨(struct_shape_choice plain arrayTyped St.empty).2.2 (by decide),
    (struct_shape_choice (arraying none) sample St.empty).1 (Or.inl rfl),
    ((struct_shape_choice plain arrayTyped St.empty).2.1 0x92 [0xa2, 104, 105, 0]
      (by decide)).1⟩

/-- C11, counterexample to the claim as stated: the session flag is unset and the
type declares array shape, so the two disagree and the session flag asks for map
shape; the encoding is the array `92 a2 68 69 00`, not a map.  (With the type flag
unset as well, the same value is encoded as the map `81 a4 4e 61 6d 65 a2 68 69`.) -/
theorem type_flag_wins_over_unset_session_flag :
    plain.structAsArray = false ∧ (plain.fieldsOf arrayTyped).AsArray = true ∧
    encodeStructValue plain arrayTyped St.empty = (none, ⟨[0x92, 0xa2, 104, 105, 0], []⟩) ∧
    isArrayLead 0x92 = true ∧ isMapLead 0x92 = false ∧
    encodeStructValue plain sample St.empty =
      (none, ⟨[0x81, 0xa4, 78, 97, 109, 101, 0xa2, 104, 105], []⟩) := by
  decide

/-- C12, as amended: `encodeMapValue` itself applies the key transform only to keys
whose dynamic type is exactly `string`.  For such a key `k` the transform, when
configured, is invoked once on `k`; if it fails the encode returns its error,
otherwise the key encoded is `EncodeValue` of the result (`e.keyOf k`).  Every other
key (an integer key, and also a key of a defined type whose underlying type is
string) is encoded unchanged through `EncodeValue`, without a call by
`encodeMapValue`.  In both cases the value encoded is the container's value under
the original key.  Keys and values are encoded by the same encoder: for a container
none of whose keys has type `string`, the transform can only be invoked, and the
encode can only fail because of it, inside the encoding of a key or value, and the
outcome is the same under another transform setting whenever every key and every
value is encoded the same under both settings. -/
theorem transform_only_on_string_typed_keys (e : Encoder) (s : St) :
    (∀ f k, e.keysToCompressed = some f → e.keyCalls k = [k] ∧
      (∀ r, f k = .ok r → e.keyOf k = r ∧ e.keyErr k = none) ∧
      (∀ err, f k = .error err → e.keyErr k = some err)) ∧
    (∀ m : List (Value × Value),
      Aborts Plan.fails e (mapHeader m.length)
        (m.map (fun p =>
          match p.1 with
          | Value.str k =>
            ⟨e.keyCalls k, e.keyErr k, some (e.valueCodec (Value.str (e.keyOf k))),
              e.valueCodec (MapIndex m p.1)⟩
          | key => ⟨[], none, some (e.valueCodec key), e.valueCodec (MapIndex m p.1)⟩)) s
        (encodeMapValue e (some m) s)) ∧
    (∀ m : List (Value × Value), (∀ p ∈ m, ∀ k, p.1 ≠ Value.str k) →
      Aborts Plan.fails e (mapHeader m.length)
        (m.map (fun p =>
          ⟨[], none, some (e.valueCodec p.1), e.valueCodec (MapIndex m p.1)⟩)) s
        (encodeMapValue e (some m) s) ∧
      (∀ s', encodeMapValue e (some m) s = (none, s') →
        s' = ⟨s.out ++ mapHeader m.length ++ m.flatMap (fun p =>
            (e.valueCodec p.1).bytes ++ (e.valueCodec (MapIndex m p.1)).bytes),
          s.calls ++ m.flatMap (fun p =>
            (e.valueCodec p.1).calls ++ (e.valueCodec (MapIndex m p.1)).calls)⟩) ∧
      (∀ tr, (∀ p ∈ m,
          ({ e with keysToCompressed := tr } : Encoder).valueCodec p.1 =
            e.valueCodec p.1 ∧
          ({ e with keysToCompressed := tr } : Encoder).valueCodec (MapIndex m p.1) =
            e.valueCodec (MapIndex m p.1)) →
        encodeMapValue { e with keysToCompressed := tr } (some m) s =
          encodeMapValue e (some m) s)) := by
  refine ⟨fun f k h => ⟨?_, fun r hr => ?_, fun err hr => ?_⟩, fun m => ?_,
    fun m hm => ⟨?_, fun s' h => ?_, fun tr htr => ?_⟩⟩
  · simp [Encoder.keyCalls, h]
  · simp [Encoder.keyOf, Encoder.keyErr, h, hr]
  · simp [Encoder.keyErr, h, hr]
  · have hpl : plansMapValue e m = m.map (fun p =>
        match p.1 with
        | Value.str k =>
          ⟨e.keyCalls k, e.keyErr k, some (e.valueCodec (Value.str (e.keyOf k))),
            e.valueCodec (MapIndex m p.1)⟩
        | key => ⟨[], none, some (e.valueCodec key), e.valueCodec (MapIndex m p.1)⟩) := by
      unfold plansMapValue
      rw [List.map_map]
      refine List.map_congr_left (fun p _ => ?_)
      rcases p with ⟨key, v⟩
      cases key <;> rfl
    rw [encodeMapValue_eq, hpl]
    exact script_aborts _ _ _ _
  · rw [encodeMapValue_eq, plansMapValue_not_str e m hm]
    exact script_aborts _ _ _ _
  · rw [encodeMapValue_eq, plansMapValue_not_str e m hm, script_eq_none] at h
    obtain ⟨-, -, rfl⟩ := h
    rw [List.flatMap_map, List.flatMap_map]
    simp [Plan.bytes, Plan.keyBytes, Plan.calls, Plan.keyNested]
  · rw [encodeMapValue_eq, encodeMapValue_eq, plansMapValue_not_str _ m hm,
      plansMapValue_not_str _ m hm]
    have hpl : m.map (fun p => (⟨[], none,
          some (({ e with keysToCompressed := tr } : Encoder).valueCodec p.1),
          ({ e with keysToCompressed := tr } : Encoder).valueCodec (MapIndex m p.1)⟩ : Plan)) =
        m.map (fun p =>
          (⟨[], none, some (e.valueCodec p.1), e.valueCodec (MapIndex m p.1)⟩ : Plan)) := by
      refine List.map_congr_left (fun p hp => ?_)
      rw [(htr p hp).1, (htr p hp).2]
    rw [hpl]
    exact congrFun (script_congr rfl _ _) s

/-- Witness for C12 as amended.  A map with the integer key 7 and a key of the
defined type `Key`, on an encoder whose transform fails on every key, is encoded as
with no transform, without a call.  A map with the keys `a` of type `string` and 7,
with the transform that puts `k` in front: `a` is emitted as `ka` after one call on
`a`, 7 unchanged, each with its own value. -/
theorem transform_only_on_string_typed_keys_witness :
    encodeMapValue { plain with keysToCompressed := some refuseKeys }
        (some [(Value.int 7, Value.int 1), (Value.namedStr "Key" "a", Value.bool true)])
        St.empty =
      (none, ⟨[0x82, 7, 1, 0xa1, 97, 0xc3], []⟩) ∧
    encodeMapValue (tagging false)
        (some [(Value.str "a", Value.int 1), (Value.int 7, Value.int 2)]) St.empty =
      (none, ⟨[0x82, 0xa2, 107, 97, 1, 7, 2], ["a"]⟩) ∧
    encodeMapValue { plain with keysToCompressed := some refuseKeys }
        (some [(Value.str "a", Value.int 1), (Value.int 7, Value.int 2)]) St.empty =
      (some ⟨"no such key"⟩, ⟨[0x82], ["a"]⟩) ∧
    encodeMapValue { plain with keysToCompressed := some refuseKeys }
        (some [(Value.int 7, Value.int 1)]) St.empty =
      encodeMapValue plain (some [(Value.int 7, Value.int 1)]) St.empty ∧
    (∀ s', encodeMapValue plain (some [(Value.int 7, Value.int 1)]) St.empty = (none, s') →
      s' = ⟨St.empty.out ++ mapHeader [(Value.int 7, Value.int 1)].length ++
          [(Value.int 7, Value.int 1)].flatMap (fun p =>
            (plain.valueCodec p.1).bytes ++
              (plain.valueCodec (MapIndex [(Value.int 7, Value.int 1)] p.1)).bytes),
        St.empty.calls ++ [(Value.int 7, Value.int 1)].flatMap (fun p =>
            (plain.valueCodec p.1).calls ++
              (plain.valueCodec (MapIndex [(Value.int 7, Value.int 1)] p.1)).calls)⟩) :=
  ⟨by decide, by decide, by decide,
    ((transform_only_on_string_typed_keys plain St.empty).2.2
      [(Value.int 7, Value.int 1)]
      (by intro p hp k; rw [List.mem_singleton.mp hp]; exact Value.noConfusion)).2.2
      (some refuseKeys) (fun _ _ => ⟨rfl, rfl⟩),
    ((transform_only_on_string_typed_keys plain St.empty).2.2
      [(Value.int 7, Value.int 1)]
      (by intro p hp k; rw [List.mem_singleton.mp hp]; exact Value.noConfusion)).2.1⟩

/-- C12, counterexample to the claim as stated, on both counts.  The key `a` of the
defined type `Key` (underlying type `string`) is a textual key, yet with a transform
configured that turns `a` into `ka` it is emitted unchanged (`a1 61`) and the
transform is not invoked; the same key of type `string` is emitted transformed
(`a2 6b 61`) after one call.  And the container `7: {x: 1}` has no textual key, yet
with a transform that fails on every key its encode invokes the transform on `x`
and fails with the transform's error, having written `81 07 81`; with no transform
it succeeds. -/
theorem named_key_skipped_and_nested_value_transformed :
    encodeMapValue (tagging false) (some [(Value.namedStr "Key" "a", Value.int 1)])
      St.empty = (none, ⟨[0x81, 0xa1, 97, 1], []⟩) ∧
    encodeMapValue (tagging false) (some [(Value.str "a", Value.int 1)])
      St.empty = (none, ⟨[0x81, 0xa2, 107, 97, 1], ["a"]⟩) ∧
    (tagging false).keyOf "a" = "ka" ∧
    encodeMapValue { deep with keysToCompressed := some refuseKeys }
      (some [(Value.int 7, Value.mapStringString (some [("x", "1")]))]) St.empty =
        (some ⟨"no such key"⟩, ⟨[0x81, 7, 0x81], ["x"]⟩) ∧
    encodeMapValue deep
      (some [(Value.int 7, Value.mapStringString (some [("x", "1")]))]) St.empty =
        (none, ⟨[0x81, 7, 0x81, 0xa1, 120, 0xa1, 49], []⟩) := by
  decide

/-- C14: with the sort-keys flag set, the outcome of `encodeMapStringStringValue` and of
`encodeMapStringInterfaceValue` does not depend on the order in which the map is
enumerated: for two enumerations of the same entries (pairwise distinct keys), the
two runs from the same state return the same result and leave the same bytes in the
sink, and the same log of transform calls. -/
theorem sorted_encoding_ignores_iteration_order (e : Encoder) (hsort : e.sortMapKeys = true)
    (s : St) :
    (∀ m1 m2 : Entries String, (m1.map Prod.fst).Nodup → m1.Perm m2 →
      encodeMapStringStringValue e (some m1) s = encodeMapStringStringValue e (some m2) s) ∧
    (∀ m1 m2 : Entries Value, (m1.map Prod.fst).Nodup → m1.Perm m2 →
      encodeMapStringInterfaceValue e (some m1) s =
        encodeMapStringInterfaceValue e (some m2) s) := by
  refine ⟨fun m1 m2 nd hp => ?_, fun m1 m2 nd hp => ?_⟩
  · have hpl : plansMapStringString e m1 = plansMapStringString e m2 := by
      unfold plansMapStringString
      rw [hsort, if_pos rfl, if_pos rfl, sortStrings_congr (hp.map Prod.fst)]
      refine List.map_congr_left (fun k _ => ?_)
      rw [index_perm "" nd hp]
    rw [encodeMapStringStringValue_eq, encodeMapStringStringValue_eq, hpl, hp.length_eq]
  · have hpl : plansMapStringInterface e m1 = plansMapStringInterface e m2 := by
      unfold plansMapStringInterface
      rw [hsort, if_pos rfl, if_pos rfl, sortStrings_congr (hp.map Prod.fst)]
      refine List.map_congr_left (fun k _ => ?_)
      rw [index_perm Value.nil nd hp]
    rw [encodeMapStringInterfaceValue_eq, encodeMapStringInterfaceValue_eq, hpl,
      hp.length_eq]

/-- Witness for C14: the map `b:2, a:1` enumerated with `b` first and with `a` first,
on the default encoder with the sort-keys flag set: both runs leave
`82 a1 61 a1 31 a1 62 a1 32` in the sink. -/
theorem sorted_encoding_ignores_iteration_order_witness :
    encodeMapStringStringValue sorting (some [("b", "2"), ("a", "1")]) St.empty =
      encodeMapStringStringValue sorting (some [("a", "1"), ("b", "2")]) St.empty ∧
    encodeMapStringStringValue sorting (some [("a", "1"), ("b", "2")]) St.empty =
      (none, ⟨[0x82, 0xa1, 97, 0xa1, 49, 0xa1, 98, 0xa1, 50], []⟩) :=
  ⟨(sorted_encoding_ignores_iteration_order sorting rfl St.empty).1
      [("b", "2"), ("a", "1")] [("a", "1"), ("b", "2")] (by decide)
      (List.Perm.swap ("a", "1") ("b", "2") []),
    by decide⟩

/-- C15, as amended: with no key transform configured, the sort-keys flag changes only
the order of the entries of the container it is applied to.  For every non-nil
string-keyed container `m` (pairwise distinct keys) and every enumeration `m2` of
its entries in ascending key order:
* `encodeSortedMapStringString` (`encodeSortedMapStringInterface`) on `m` is the
  unsorted loop of the same encoder run over `m2`;
* for `map[string]string`, the encoder with the flag set, on `m`, has the same
  outcome (result, bytes, state) as the encoder with the flag unset, on `m2`;
* for `map[string]interface{}` the same holds whenever every value is encoded the
  same under both flag settings.
And for any enumeration `m`, the pairs the sorted path emits are a permutation
`kvs` of the pairs the unsorted loop emits: on success the sorted run leaves the
header and the pairs of `kvs` in the sink, the unsorted run the header and the pairs
of `m`, each value encoded by the encoder of its run. -/
theorem sort_flag_changes_only_order (e : Encoder) (hno : e.keysToCompressed = none)
    (s : St) :
    (∀ m m2 : Entries String, (m.map Prod.fst).Nodup → m2.Perm m →
      (m2.map Prod.fst).Sorted (· ≤ ·) →
      e.encodeSortedMapStringString m s =
        forRange (fun (p : String × String) =>
          e.compress p.1 (fun mk =>
            (e.EncodeString mk).andThen (e.EncodeString p.2))) m2 s ∧
      encodeMapStringStringValue { e with sortMapKeys := true } (some m) s =
        encodeMapStringStringValue { e with sortMapKeys := false } (some m2) s) ∧
    (∀ m m2 : Entries Value, (m.map Prod.fst).Nodup → m2.Perm m →
      (m2.map Prod.fst).Sorted (· ≤ ·) →
      e.encodeSortedMapStringInterface m s =
        forRange (fun (p : String × Value) =>
          e.compress p.1 (fun mk =>
            (e.EncodeString mk).andThen (e.Encode p.2))) m2 s ∧
      ((∀ p ∈ m, ({ e with sortMapKeys := true } : Encoder).ifaceCodec p.2 =
          ({ e with sortMapKeys := false } : Encoder).ifaceCodec p.2) →
        encodeMapStringInterfaceValue { e with sortMapKeys := true } (some m) s =
          encodeMapStringInterfaceValue { e with sortMapKeys := false } (some m2) s)) ∧
    (∀ m : Entries String, (m.map Prod.fst).Nodup →
      ∃ kvs : Entries String, kvs.Perm m ∧ (kvs.map Prod.fst).Sorted (· < ·) ∧
        (∀ s1, encodeMapStringStringValue { e with sortMapKeys := true } (some m) s =
            (none, s1) →
          s1.out = s.out ++ mapHeader m.length ++ kvs.flatMap (fun kv =>
            (e.stringCodec kv.1).bytes ++ (e.stringCodec kv.2).bytes)) ∧
        (∀ s2, encodeMapStringStringValue { e with sortMapKeys := false } (some m) s =
            (none, s2) →
          s2.out = s.out ++ mapHeader m.length ++ m.flatMap (fun kv =>
            (e.stringCodec kv.1).bytes ++ (e.stringCodec kv.2).bytes))) ∧
    (∀ m : Entries Value, (m.map Prod.fst).Nodup →
      ∃ kvs : Entries Value, kvs.Perm m ∧ (kvs.map Prod.fst).Sorted (· < ·) ∧
        (∀ s1, encodeMapStringInterfaceValue { e with sortMapKeys := true } (some m) s =
            (none, s1) →
          s1.out = s.out ++ mapHeader m.length ++ kvs.flatMap (fun kv =>
            (e.stringCodec kv.1).bytes ++
              (({ e with sortMapKeys := true } : Encoder).ifaceCodec kv.2).bytes)) ∧
        (∀ s2, encodeMapStringInterfaceValue { e with sortMapKeys := false } (some m) s =
            (none, s2) →
          s2.out = s.out ++ mapHeader m.length ++ m.flatMap (fun kv =>
            (e.stringCodec kv.1).bytes ++
              (({ e with sortMapKeys := false } : Encoder).ifaceCodec kv.2).bytes))) := by
  have hkey : ∀ k, e.keyOf k = k := keyOf_none hno
  have hkeyT : ∀ k, ({ e with sortMapKeys := true } : Encoder).keyOf k = k :=
    @keyOf_none { e with sortMapKeys := true } hno
  have hkeyF : ∀ k, ({ e with sortMapKeys := false } : Encoder).keyOf k = k :=
    @keyOf_none { e with sortMapKeys := false } hno
  refine ⟨fun m m2 nd hp hs => ⟨?_, ?_⟩, fun m m2 nd hp hs => ⟨?_, fun hv => ?_⟩,
    fun m nd => ?_, fun m nd => ?_⟩
  · rw [encodeSortedMapStringString_eq, plans_sorted_eq_unsorted_SS e hno nd hp hs,
      forRange_map]
    have h1 : ∀ p : String × String,
        e.compress p.1 (fun mk => (e.EncodeString mk).andThen (e.EncodeString p.2)) =
          (planEntry e p.1 (e.stringCodec p.2)).run e :=
      fun p => compress_eq e p.1 (fun _ => e.stringCodec p.2)
    simp only [h1]
  · have hpl : plansMapStringString { e with sortMapKeys := true } m =
        plansMapStringString { e with sortMapKeys := false } m2 :=
      plans_sorted_eq_unsorted_SS { e with sortMapKeys := true } hno nd hp hs
    rw [encodeMapStringStringValue_eq, encodeMapStringStringValue_eq, hpl, hp.length_eq]
    rfl
  · rw [encodeSortedMapStringInterface_eq, plans_sorted_eq_unsorted_SI e hno nd hp hs,
      forRange_map]
    have h1 : ∀ p : String × Value,
        e.compress p.1 (fun mk => (e.EncodeString mk).andThen (e.Encode p.2)) =
          (planEntry e p.1 (e.ifaceCodec p.2)).run e :=
      fun p => compress_eq e p.1 (fun _ => e.ifaceCodec p.2)
    simp only [h1]
  · have hpl : plansMapStringInterface { e with sortMapKeys := true } m =
        plansMapStringInterface { e with sortMapKeys := false } m2 := by
      have h1 : plansMapStringInterface { e with sortMapKeys := true } m =
          m2.map (fun p => planEntry { e with sortMapKeys := true } p.1
            (({ e with sortMapKeys := true } : Encoder).ifaceCodec p.2)) :=
        plans_sorted_eq_unsorted_SI { e with sortMapKeys := true } hno nd hp hs
      rw [h1]
      have h2 : plansMapStringInterface { e with sortMapKeys := false } m2 =
          m2.map (fun p => planEntry { e with sortMapKeys := false } p.1
            (({ e with sortMapKeys := false } : Encoder).ifaceCodec p.2)) := rfl
      rw [h2]
      refine List.map_congr_left (fun p hpm => ?_)
      rw [hv p (hp.mem_iff.mp hpm)]
      rfl
    rw [encodeMapStringInterfaceValue_eq, encodeMapStringInterfaceValue_eq, hpl,
      hp.length_eq]
    rfl
  · refine ⟨_, ascending_perm "" nd, ascending_sorted "" nd, fun s1 h => ?_, fun s2 h => ?_⟩
    · have hpl : plansMapStringString { e with sortMapKeys := true } m =
          ((sortStrings (m.map Prod.fst)).map (fun k => (k, index "" m k))).map
            (fun p => planEntry e p.1 (e.stringCodec p.2)) :=
        plans_sorted_eq_unsorted_SS e hno nd (ascending_perm "" nd)
          (ascending_sorted "" nd).le_of_lt
      rw [encodeMapStringStringValue_eq, script_eq_none, hpl] at h
      obtain ⟨-, -, rfl⟩ := h
      simp only [bytes_planEntry e Prod.fst (fun p : String × String => e.stringCodec p.2),
        hkey]
    · have hpl : plansMapStringString { e with sortMapKeys := false } m =
          m.map (fun p => planEntry e p.1 (e.stringCodec p.2)) := rfl
      rw [encodeMapStringStringValue_eq, script_eq_none, hpl] at h
      obtain ⟨-, -, rfl⟩ := h
      simp only [bytes_planEntry e Prod.fst (fun p : String × String => e.stringCodec p.2),
        hkey]
  · refine ⟨_, ascending_perm Value.nil nd, ascending_sorted Value.nil nd,
      fun s1 h => ?_, fun s2 h => ?_⟩
    · have hpl : plansMapStringInterface { e with sortMapKeys := true } m =
          ((sortStrings (m.map Prod.fst)).map (fun k => (k, index Value.nil m k))).map
            (fun p => planEntry { e with sortMapKeys := true } p.1
              (({ e with sortMapKeys := true } : Encoder).ifaceCodec p.2)) :=
        plans_sorted_eq_unsorted_SI { e with sortMapKeys := true } hno nd
          (ascending_perm Value.nil nd) (ascending_sorted Value.nil nd).le_of_lt
      rw [encodeMapStringInterfaceValue_eq, script_eq_none, hpl] at h
      obtain ⟨-, -, rfl⟩ := h
      simp only [bytes_planEntry { e with sortMapKeys := true } Prod.fst
        (fun p : String × Value => ({ e with sortMapKeys := true } : Encoder).ifaceCodec p.2),
        hkeyT]
    · have hpl : plansMapStringInterface { e with sortMapKeys := false } m =
          m.map (fun p => planEntry { e with sortMapKeys := false } p.1
            (({ e with sortMapKeys := false } : Encoder).ifaceCodec p.2)) := rfl
      rw [encodeMapStringInterfaceValue_eq, script_eq_none, hpl] at h
      obtain ⟨-, -, rfl⟩ := h
      simp only [bytes_planEntry { e with sortMapKeys := false } Prod.fst
        (fun p : String × Value => ({ e with sortMapKeys := false } : Encoder).ifaceCodec p.2),
        hkeyF]

/-- Witness for C15 as amended: the map `b:2, a:1` enumerated with `b` first, on the
default encoder.  With the sort-keys flag set the outcome is that of the unsorted
encoder on the enumeration `a:1, b:2`, namely `82 a1 61 a1 31 a1 62 a1 32`, for
`map[string]string` and (`82 a1 61 01 a1 62 02`) for `map[string]interface{}` with
scalar values; the sorted functions on their own write these pairs without the
header; the unsorted encoder on the original enumeration emits the same two pairs
in the other order. -/
theorem sort_flag_changes_only_order_witness :
    (sorting.encodeSortedMapStringString [("b", "2"), ("a", "1")] St.empty =
        forRange (fun (p : String × String) =>
          sorting.compress p.1 (fun mk =>
            (sorting.EncodeString mk).andThen (sorting.EncodeString p.2)))
          [("a", "1"), ("b", "2")] St.empty ∧
      encodeMapStringStringValue { plain with sortMapKeys := true }
          (some [("b", "2"), ("a", "1")]) St.empty =
        encodeMapStringStringValue { plain with sortMapKeys := false }
          (some [("a", "1"), ("b", "2")]) St.empty) ∧
    encodeMapStringInterfaceValue { plain with sortMapKeys := true }
        (some [("b", Value.int 2), ("a", Value.int 1)]) St.empty =
      encodeMapStringInterfaceValue { plain with sortMapKeys := false }
        (some [("a", Value.int 1), ("b", Value.int 2)]) St.empty ∧
    encodeMapStringStringValue { plain with sortMapKeys := true }
        (some [("b", "2"), ("a", "1")]) St.empty =
      (none, ⟨[0x82, 0xa1, 97, 0xa1, 49, 0xa1, 98, 0xa1, 50], []⟩) ∧
    encodeMapStringStringValue { plain with sortMapKeys := false }
        (some [("b", "2"), ("a", "1")]) St.empty =
      (none, ⟨[0x82, 0xa1, 98, 0xa1, 50, 0xa1, 97, 0xa1, 49], []⟩) ∧
    encodeMapStringInterfaceValue { plain with sortMapKeys := true }
        (some [("b", Value.int 2), ("a", Value.int 1)]) St.empty =
      (none, ⟨[0x82, 0xa1, 97, 1, 0xa1, 98, 2], []⟩) ∧
    encodeMapStringInterfaceValue { plain with sortMapKeys := false }
        (some [("b", Value.int 2), ("a", Value.int 1)]) St.empty =
      (none, ⟨[0x82, 0xa1, 98, 2, 0xa1, 97, 1], []⟩) ∧
    sorting.encodeSortedMapStringString [("b", "2"), ("a", "1")] St.empty =
      (none, ⟨[0xa1, 97, 0xa1, 49, 0xa1, 98, 0xa1, 50], []⟩) ∧
    sorting.encodeSortedMapStringInterface [("b", Value.int 2), ("a", Value.int 1)]
        St.empty =
      (none, ⟨[0xa1, 97, 1, 0xa1, 98, 2], []⟩) :=
  ⟨(sort_flag_changes_only_order sorting rfl St.empty).1
      [("b", "2"), ("a", "1")] [("a", "1"), ("b", "2")] (by decide)
      (List.Perm.swap ("b", "2") ("a", "1") [])
      (by simp only [List.map, List.sorted_cons, List.mem_cons, List.mem_singleton,
            List.not_mem_nil, forall_eq_or_imp, forall_eq, List.sorted_nil,
            String.le_iff_toList_le, false_imp_iff, implies_true, and_true]
          decide),
    ((sort_flag_changes_only_order plain rfl St.empty).2.1
      [("b", Value.int 2), ("a", Value.int 1)] [("a", Value.int 1), ("b", Value.int 2)]
      (by decide) (List.Perm.swap ("b", Value.int 2) ("a", Value.int 1) [])
      (by simp only [List.map, List.sorted_cons, List.mem_cons, List.mem_singleton,
            List.not_mem_nil, forall_eq_or_imp, forall_eq, List.sorted_nil,
            String.le_iff_toList_le, false_imp_iff, implies_true, and_true]
          decide)).2 (fun _ _ => rfl),
    by decide, by decide, by decide, by decide, by decide, by decide⟩

/-- C15, counterexample to the claim as stated: the `map[string]interface{}` with the
single entry `a`, whose value is the `map[string]string` `b:2, a:1` enumerated with
`b` first; no transform is configured and the enumeration of the container is in
ascending key order.  The sorted path hands the value to `Encode` of the encoder
with the flag set, which sorts the nested map; the unsorted loop hands it to
`Encode` of the encoder with the flag unset, which does not.  The two write
different bytes, `81 a1 61 82 a1 61 a1 31 a1 62 a1 32` and
`81 a1 61 82 a1 62 a1 32 a1 61 a1 31`. -/
theorem sort_flag_reaches_nested_map :
    encodeMapStringInterfaceValue { deep with sortMapKeys := true }
      (some [("a", Value.mapStringString (some [("b", "2"), ("a", "1")]))]) St.empty =
        (none, ⟨[0x81, 0xa1, 97, 0x82, 0xa1, 97, 0xa1, 49, 0xa1, 98, 0xa1, 50], []⟩) ∧
    encodeMapStringInterfaceValue { deep with sortMapKeys := false }
      (some [("a", Value.mapStringString (some [("b", "2"), ("a", "1")]))]) St.empty =
        (none, ⟨[0x81, 0xa1, 97, 0x82, 0xa1, 98, 0xa1, 50, 0xa1, 97, 0xa1, 49], []⟩) := by
  decide

/-- C16: `EncodeMapLen` has no error path of its own: for every `l` it makes one
write and returns what the sink returns, so it succeeds whenever the sink accepts
the write.  For every `n ≥ 2^32` the write is the `Map32` lead byte followed by the
four bytes of `n mod 2^32`, high byte first, a header that decodes to `n mod 2^32`.
For every negative `l` it takes the one-byte branch and writes the single byte
`FixedMapLow | (l mod 256)`. -/
theorem EncodeMapLen_truncates (e : Encoder) (s : St) :
    (∀ l : Int, ∃ bytes, e.EncodeMapLen l = e.write bytes) ∧
    (∀ bytes, (e.write bytes s).1 = e.w s.out bytes ∧
      (e.w s.out bytes = none → e.write bytes s = (none, ⟨s.out ++ bytes, s.calls⟩))) ∧
    (∀ n : Nat, 4294967296 ≤ n →
      e.EncodeMapLen n =
        e.write [codes.Map32, n % 4294967296 / 16777216, n % 4294967296 / 65536 % 256,
          n % 4294967296 / 256 % 256, n % 4294967296 % 256] ∧
      ∀ rest, decodeMapLen
        ([codes.Map32, n % 4294967296 / 16777216, n % 4294967296 / 65536 % 256,
          n % 4294967296 / 256 % 256, n % 4294967296 % 256] ++ rest) =
        some (n % 4294967296, rest)) ∧
    (∀ l : Int, l < 0 →
      e.EncodeMapLen l = e.write [codes.FixedMapLow ||| (l % 256).toNat] ∧
      (codes.FixedMapLow ||| (l % 256).toNat) < 256) := by
  refine ⟨fun l => ?_, fun bytes => ?_, fun n hn => ⟨?_, fun rest => ?_⟩, fun l hl => ⟨?_, ?_⟩⟩
  · unfold Encoder.EncodeMapLen Encoder.writeCode Encoder.write2 Encoder.write4
    split
    · exact ⟨_, rfl⟩
    · split
      · exact ⟨_, rfl⟩
      · exact ⟨_, rfl⟩
  · rw [write_eq]
    cases h : e.w s.out bytes <;> simp
  · have b3 : n / 16777216 % 256 = n % 4294967296 / 16777216 := by omega
    have b2 : n / 65536 % 256 = n % 4294967296 / 65536 % 256 := by omega
    have b1 : n / 256 % 256 = n % 4294967296 / 256 % 256 := by omega
    have b0 : n % 256 = n % 4294967296 % 256 := by omega
    rw [EncodeMapLen_eq, mapHeader, if_neg (by omega), if_neg (by omega), codes.Map32,
      b3, b2, b1, b0]
  · simp only [codes.Map32, List.cons_append, List.nil_append, decodeMapLen]
    norm_num
    omega
  · unfold Encoder.EncodeMapLen
    rw [if_pos (by omega)]
    rfl
  · have h1 : (l % 256).toNat < 2 ^ 8 := by omega
    have h2 : codes.FixedMapLow < 2 ^ 8 := by decide
    exact Nat.or_lt_two_pow h2 h1

/-- Witness for C16 on the default encoder and the empty sink: the count `2^32 + 5`
is written as the `Map32` header of 5 and the length `-1` as the byte `ff`; both
calls return no error. -/
theorem EncodeMapLen_truncates_witness :
    (plain.EncodeMapLen (4294967301 : Nat) =
      plain.write [codes.Map32, 4294967301 % 4294967296 / 16777216,
        4294967301 % 4294967296 / 65536 % 256, 4294967301 % 4294967296 / 256 % 256,
        4294967301 % 4294967296 % 256]) ∧
    plain.EncodeMapLen (-1) = plain.write [codes.FixedMapLow ||| ((-1 : Int) % 256).toNat] ∧
    plain.EncodeMapLen 4294967301 St.empty = (none, ⟨[0xdf, 0, 0, 0, 5], []⟩) ∧
    plain.EncodeMapLen (-1) St.empty = (none, ⟨[0xff], []⟩) :=
  ⟨((EncodeMapLen_truncates plain St.empty).2.2.1 4294967301 (by decide)).1,
    ((EncodeMapLen_truncates plain St.empty).2.2.2 (-1) (by decide)).1,
    by decide, by decide⟩

end Msgpack
